import Mathlib

/-!
# Verification of the ACIS dependency-ordering core (`topological_sort.py`)

This file gives a shallow embedding of the dependency-graph construction and
cycle-tolerant topological sort of `topological_sort.py`, together with the
part of Python's standard-library `graphlib.TopologicalSorter` that the code
relies on (`static_order`, and `_find_cycle`, whose result is carried by
`CycleError`).

Modelling conventions:
* A Python `Dict[str, Set[str]]` becomes `List (Node × List Node)`: an
  insertion-ordered association list.  A Python `set` becomes a duplicate-free
  `List` recording one iteration order of the set (iteration order of a set is
  fixed within a run); set insertion (`set.add`) becomes `insertNew`.
* `graphlib`'s iterative stack/itstack depth-first search is written as a
  recursive function `dfs` whose explicit frame list `(node, remaining
  successor iterator)` mirrors the paired `stack`/`itstack` of CPython's
  `_find_cycle` (top of stack at the head of the list).
* `static_order` emits ready nodes in waves (`get_ready` / `done`); emitting
  the wave queue one node at a time while appending newly readied nodes at the
  back (`kahnLoop`) produces the identical output sequence, because `done`
  processes the wave nodes in wave order and appends to the same ready list.
* Python `int` counters become `Int` (the `_NODE_OUT` marker `-1` included).
-/

namespace TopoSort

abbrev Node := String

/-- A dependency graph: insertion-ordered mapping from a node to the list of
nodes it depends on (its predecessors in `graphlib` terminology). -/
abbrev Graph := List (Node × List Node)

/-- The keys of the graph dictionary. -/
def keys (g : Graph) : List Node := g.map Prod.fst

/-- Dictionary lookup (`graph.get(n)`): first entry with the given key. -/
def lookupG (g : Graph) (n : Node) : Option (List Node) :=
  (g.find? (fun e => e.1 = n)).map (fun e => e.2)

/-- The dependency (predecessor) list of `n`, empty for a non-key. -/
def preds (g : Graph) (n : Node) : List Node := (lookupG g n).getD []

/-- The successor list of `p` as built by `TopologicalSorter.add`: the keys
`n` with `p ∈ graph[n]`, in graph order (each `add(n, *preds)` appends `n` to
the successor list of every predecessor). -/
def succs (g : Graph) (p : Node) : List Node :=
  (g.filter (fun e => p ∈ e.2)).map Prod.fst

/-- `set.add` on an insertion-ordered set representation. -/
def insertNew (l : List Node) (n : Node) : List Node :=
  if n ∈ l then l else l ++ [n]

/-- The insertion order of `TopologicalSorter._node2info`: for each graph item
the key is interned first, then its predecessors in order. -/
def n2iOrder (g : Graph) : List Node :=
  g.foldl (fun acc e => e.2.foldl insertNew (insertNew acc e.1)) []

/-- Well-formedness inherited from Python dict/set: no duplicate keys, no
duplicate members inside a dependency set. -/
def WFGraph (g : Graph) : Prop :=
  (keys g).Nodup ∧ ∀ e ∈ g, e.2.Nodup

instance : DecidablePred WFGraph := fun g => by
  unfold WFGraph; infer_instance

/-! ## The depth-first cycle search of `graphlib._find_cycle` -/

/-- One backtracking step of `_find_cycle`'s inner `while stack` loop: pop
exhausted frames, then take the next successor from the top iterator. -/
def advance : List (Node × List Node) → Option (Node × List (Node × List Node))
  | [] => none
  | (_, []) :: rest => advance rest
  | (n, s :: ss) :: rest => some (s, (n, ss) :: rest)

/-- Termination measure for frame lists: total pending successors plus the
number of frames. -/
def advMeasure (frames : List (Node × List Node)) : Nat :=
  (frames.map (fun f => f.2.length)).sum + frames.length

theorem advance_measure_lt {frames : List (Node × List Node)} {nx fr'}
    (h : advance frames = some (nx, fr')) : advMeasure fr' < advMeasure frames := by
  induction frames with
  | nil => simp [advance] at h
  | cons f rest ih =>
    match f with
    | (n, []) =>
      simp only [advance] at h
      have := ih h
      simp only [advMeasure, List.map_cons, List.sum_cons, List.length_cons] at *
      omega
    | (n, s :: ss) =>
      simp only [advance, Option.some.injEq, Prod.mk.injEq] at h
      obtain ⟨h1, h2⟩ := h
      subst h2
      simp [advMeasure, List.map_cons, List.sum_cons]

/-- Number of not-yet-seen nodes; first component of the `dfs` measure. -/
def unseenCount (g : Graph) (seen : List Node) : Nat :=
  ((n2iOrder g).filter (fun x => ¬ x ∈ seen)).length

theorem unseenCount_push_lt {g : Graph} {seen : List Node} {cur : Node}
    (hmem : cur ∈ n2iOrder g) (hnot : ¬ cur ∈ seen) :
    unseenCount g (seen ++ [cur]) < unseenCount g seen := by
  unfold unseenCount
  have hsub : List.Sublist ((n2iOrder g).filter (fun x => decide ¬ x ∈ seen ++ [cur]))
      ((n2iOrder g).filter (fun x => decide ¬ x ∈ seen)) := by
    apply List.monotone_filter_right
    intro a ha
    simp only [decide_eq_true_eq, List.mem_append, List.mem_singleton] at *
    tauto
  rcases Nat.lt_or_ge (((n2iOrder g).filter (fun x => decide ¬ x ∈ seen ++ [cur])).length)
      (((n2iOrder g).filter (fun x => decide ¬ x ∈ seen)).length) with h | h
  · exact h
  · exfalso
    have heq := hsub.eq_of_length_le h
    have hin : cur ∈ (n2iOrder g).filter (fun x => decide ¬ x ∈ seen) := by
      simp [List.mem_filter, hmem, hnot]
    rw [← heq] at hin
    simp [List.mem_filter] at hin

/-- The body of `_find_cycle`'s `while True` loop, as a recursion on the
current node, the frame list (paired `stack`/`itstack`, top first) and the
`seen` set.  Returns the detected cycle (`stack[stacki:] + [node]`) or, when
the stack runs empty, the enlarged `seen` set. -/
def dfs (g : Graph) (cur : Node) (frames : List (Node × List Node))
    (seen : List Node) : Option (List Node) × List Node :=
  if cur ∈ seen then
    if cur ∈ frames.map Prod.fst then
      (some ((((frames.map Prod.fst).reverse).dropWhile (fun x => ¬ x = cur)) ++ [cur]), seen)
    else
      match hadv : advance frames with
      | none => (none, seen)
      | some (nx, frames') => dfs g nx frames' seen
  else if cur ∈ n2iOrder g then
    match hadv : advance ((cur, succs g cur) :: frames) with
    | none => (none, seen ++ [cur])
    | some (nx, frames') => dfs g nx frames' (seen ++ [cur])
  else
    -- unreachable for nodes produced by the search itself: every visited node
    -- is interned in `_node2info`; kept total by skipping such a node
    match hadv : advance frames with
    | none => (none, seen)
    | some (nx, frames') => dfs g nx frames' seen
termination_by (unseenCount g seen, advMeasure frames)
decreasing_by
  · exact Prod.Lex.right _ (advance_measure_lt (by assumption))
  · exact Prod.Lex.left _ _ (unseenCount_push_lt (by assumption) (by assumption))
  · exact Prod.Lex.right _ (advance_measure_lt (by assumption))

/-- The outer `for node in self._node2info` loop of `_find_cycle`. -/
def findCycleAux (g : Graph) : List Node → List Node → Option (List Node)
  | [], _ => none
  | r :: rest, seen =>
    if r ∈ seen then findCycleAux g rest seen
    else
      match dfs g r [] seen with
      | (some c, _) => some c
      | (none, seen') => findCycleAux g rest seen'

/-- `TopologicalSorter._find_cycle`, whose result is raised in `CycleError`
(its second argument, `e.args[1]` in `ignore_cycles`). -/
def findCycle (g : Graph) : Option (List Node) := findCycleAux g (n2iOrder g) []

/-! ## `TopologicalSorter.static_order` (Kahn's algorithm) -/

/-- `get_ready` marks every handed-out node with `_NODE_OUT = -1`. -/
def markOut (counts : List (Node × Int)) (n : Node) : List (Node × Int) :=
  counts.map (fun e => if e.1 = n then (e.1, -1) else e)

/-- `successor_info.npredecessors -= 1`. -/
def decOne (counts : List (Node × Int)) (n : Node) : List (Node × Int) :=
  counts.map (fun e => if e.1 = n then (e.1, e.2 - 1) else e)

/-- One iteration of `done`'s successor loop: decrement the successor's
predecessor count and, when it reaches zero, append it to the ready list. -/
def succStep (acc : List (Node × Int) × List Node) (s : Node) :
    List (Node × Int) × List Node :=
  match acc.1.find? (fun e => e.1 = s) with
  | none => acc
  | some e =>
    if e.2 - 1 = 0 then (decOne acc.1 s, acc.2 ++ [s]) else (decOne acc.1 s, acc.2)

/-- `done(node)`: process all successors of the finished node. -/
def processSuccs (counts : List (Node × Int)) (ss : List Node) :
    List (Node × Int) × List Node :=
  ss.foldl succStep (counts, [])

/-- Sum of the positive parts of the counters; part of the loop measure. -/
def posSum (counts : List (Node × Int)) : Nat :=
  (counts.map (fun e => e.2.toNat)).sum

theorem posSum_cons (e : Node × Int) (rest : List (Node × Int)) :
    posSum (e :: rest) = e.2.toNat + posSum rest := by
  simp [posSum]

theorem markOut_cons (e : Node × Int) (rest : List (Node × Int)) (n : Node) :
    markOut (e :: rest) n = (if e.1 = n then (e.1, (-1 : Int)) else e) :: markOut rest n := by
  simp [markOut]

theorem decOne_cons (e : Node × Int) (rest : List (Node × Int)) (n : Node) :
    decOne (e :: rest) n = (if e.1 = n then (e.1, e.2 - 1) else e) :: decOne rest n := by
  simp [decOne]

theorem posSum_markOut_le (counts : List (Node × Int)) (n : Node) :
    posSum (markOut counts n) ≤ posSum counts := by
  induction counts with
  | nil => simp [posSum, markOut]
  | cons e rest ih =>
    rw [markOut_cons, posSum_cons, posSum_cons]
    by_cases h : e.1 = n
    · rw [if_pos h]; simp only; omega
    · rw [if_neg h]; omega

theorem posSum_decOne_le (counts : List (Node × Int)) (n : Node) :
    posSum (decOne counts n) ≤ posSum counts := by
  induction counts with
  | nil => simp [posSum, decOne]
  | cons e rest ih =>
    rw [decOne_cons, posSum_cons, posSum_cons]
    by_cases h : e.1 = n
    · rw [if_pos h]; simp only; omega
    · rw [if_neg h]; omega

theorem posSum_decOne_lt (counts : List (Node × Int)) (e : Node × Int) (var : Node)
    (hmem : e ∈ counts) (hkey : e.1 = var) (hval : e.2 = 1) :
    posSum (decOne counts var) < posSum counts := by
  induction counts with
  | nil => simp at hmem
  | cons f rest ih =>
    rw [decOne_cons, posSum_cons, posSum_cons]
    rcases List.mem_cons.mp hmem with h | h
    · subst h
      rw [if_pos hkey, hval]
      have := posSum_decOne_le rest var
      simp only
      omega
    · have := ih h
      by_cases hf : f.1 = var
      · rw [if_pos hf]
        have hle : ((f.2 - 1).toNat : Nat) ≤ f.2.toNat := by omega
        simp only
        omega
      · rw [if_neg hf]
        omega

theorem posSum_succStep (acc : List (Node × Int) × List Node) (s : Node) :
    posSum (succStep acc s).1 + (succStep acc s).2.length ≤ posSum acc.1 + acc.2.length := by
  unfold succStep
  cases hf : acc.1.find? (fun e => e.1 = s) with
  | none => simp
  | some e =>
    have hmem : e ∈ acc.1 := List.mem_of_find?_eq_some hf
    have hkey : e.1 = s := by
      have := List.find?_some hf
      simpa using this
    by_cases hz : e.2 - 1 = 0
    · have hval : e.2 = 1 := by omega
      have := posSum_decOne_lt acc.1 e s hmem hkey hval
      simp only [if_pos hz, List.length_append, List.length_singleton]
      omega
    · have := posSum_decOne_le acc.1 s
      simp only [if_neg hz]
      omega

theorem posSum_processSuccs (ss : List Node) :
    ∀ counts ready, posSum (ss.foldl succStep (counts, ready)).1 +
      (ss.foldl succStep (counts, ready)).2.length ≤ posSum counts + ready.length := by
  induction ss with
  | nil => intro counts ready; simp
  | cons s rest ih =>
    intro counts ready
    simp only [List.foldl_cons]
    have h1 := posSum_succStep (counts, ready) s
    have h2 := ih (succStep (counts, ready) s).1 (succStep (counts, ready) s).2
    calc posSum (rest.foldl succStep ((succStep (counts, ready) s).1,
            (succStep (counts, ready) s).2)).1 +
          (rest.foldl succStep ((succStep (counts, ready) s).1,
            (succStep (counts, ready) s).2)).2.length
        ≤ posSum (succStep (counts, ready) s).1 + (succStep (counts, ready) s).2.length := by
          simpa using h2
      _ ≤ posSum counts + ready.length := h1

/-- The `while self.is_active()` loop of `static_order`, emitting the ready
queue one node at a time; newly readied successors are appended at the back,
which reproduces the wave-by-wave emission order of `get_ready`/`done`. -/
def kahnLoop (g : Graph) (counts : List (Node × Int)) (queue : List Node) : List Node :=
  match queue with
  | [] => []
  | n :: rest =>
    let p := processSuccs (markOut counts n) (succs g n)
    n :: kahnLoop g p.1 (rest ++ p.2)
termination_by posSum counts + queue.length
decreasing_by
  have h1 := posSum_processSuccs (succs g n) (markOut counts n) []
  have h2 := posSum_markOut_le counts n
  simp only [List.length_nil, Nat.add_zero] at h1
  simp only [processSuccs, List.length_append, List.length_cons]
  omega

/-- The counters set up by `prepare`: `npredecessors` of every interned node. -/
def initCounts (g : Graph) : List (Node × Int) :=
  (n2iOrder g).map (fun n => (n, ((preds g n).length : Int)))

/-- The initial ready list of `prepare`: interned nodes without predecessors,
in interning order. -/
def initReady (g : Graph) : List Node :=
  (n2iOrder g).filter (fun n => (preds g n).length = 0)

/-- `list(TopologicalSorter(graph).static_order())`, assuming `prepare` did
not raise (`findCycle g = none`). -/
def staticOrder (g : Graph) : List Node :=
  kahnLoop g (initCounts g) (initReady g)

/-! ## Invariants of the cycle search -/

theorem mem_succs_iff {g : Graph} {p x : Node} :
    x ∈ succs g p ↔ ∃ e ∈ g, e.1 = x ∧ p ∈ e.2 := by
  unfold succs
  simp only [List.mem_map, List.mem_filter, decide_eq_true_eq]
  constructor
  · rintro ⟨e, ⟨he, hp⟩, hx⟩
    exact ⟨e, he, hx, hp⟩
  · rintro ⟨e, he, hx, hp⟩
    exact ⟨e, ⟨he, hp⟩, hx⟩

theorem succs_subset_keys {g : Graph} {p x : Node} (h : x ∈ succs g p) : x ∈ keys g := by
  obtain ⟨e, he, hx, _⟩ := mem_succs_iff.mp h
  exact hx ▸ List.mem_map_of_mem Prod.fst he

theorem dropWhile_ne_cons {l : List Node} {a : Node} (h : a ∈ l) :
    ∃ t, l.dropWhile (fun x => ¬ x = a) = a :: t := by
  induction l with
  | nil => simp at h
  | cons b bs ih =>
    by_cases hb : b = a
    · subst hb
      refine ⟨bs, ?_⟩
      simp [List.dropWhile]
    · have hmem : a ∈ bs := by
        rcases List.mem_cons.mp h with h' | h'
        · exact absurd h'.symm hb
        · exact h'
      obtain ⟨t, ht⟩ := ih hmem
      refine ⟨t, ?_⟩
      simpa [List.dropWhile, hb] using ht

theorem chain_last_transGen {r : Node → Node → Prop} {a b c : Node} {l : List Node}
    (hch : List.Chain r a l) (hlast : (a :: l).getLast? = some b) (hr : r b c) :
    Relation.TransGen r a c := by
  induction l generalizing a with
  | nil =>
    simp only [List.getLast?_singleton, Option.some.injEq] at hlast
    subst hlast
    exact Relation.TransGen.single hr
  | cons x xs ih =>
    rcases hch with _ | ⟨hax, hxxs⟩
    have hlast' : (x :: xs).getLast? = some b := by
      simpa [List.getLast?_cons_cons] using hlast
    exact Relation.TransGen.head hax (ih hxxs hlast')

/-- The invariant of `dfs`: every pending successor in a frame really is a
successor of the frame's node, and consecutive stack nodes are joined by
successor edges. -/
def FramesInv (g : Graph) (frames : List (Node × List Node)) : Prop :=
  (∀ f ∈ frames, ∀ x ∈ f.2, x ∈ succs g f.1) ∧
    List.Chain' (fun a b => a ∈ succs g b) (frames.map Prod.fst)

theorem advance_inv {g : Graph} {frames : List (Node × List Node)} {nx : Node}
    {fr' : List (Node × List Node)} (hinv : FramesInv g frames)
    (h : advance frames = some (nx, fr')) :
    FramesInv g fr' ∧ ∃ f, fr'.head? = some f ∧ nx ∈ succs g f.1 := by
  induction frames with
  | nil => simp [advance] at h
  | cons f rest ih =>
    obtain ⟨hmem, hch⟩ := hinv
    match f with
    | (n, []) =>
      simp only [advance] at h
      refine ih ⟨fun f hf => hmem f (List.mem_cons_of_mem _ hf), ?_⟩ h
      simpa using hch.tail
    | (n, s :: ss) =>
      simp only [advance, Option.some.injEq, Prod.mk.injEq] at h
      obtain ⟨hs, hfr⟩ := h
      subst hs; subst hfr
      have hn : s ∈ succs g n := hmem (n, s :: ss) (List.mem_cons_self _ _) s (List.mem_cons_self _ _)
      refine ⟨⟨?_, ?_⟩, (n, ss), rfl, hn⟩
      · intro f hf x hx
        rcases List.mem_cons.mp hf with h' | h'
        · subst h'
          exact hmem (n, s :: ss) (List.mem_cons_self _ _) x (List.mem_cons_of_mem _ hx)
        · exact hmem f (List.mem_cons_of_mem _ h') x hx
      · simpa using hch

/-! Branch unfolding equations for `dfs`. -/

theorem dfs_eq_cycle {g : Graph} {cur : Node} {frames : List (Node × List Node)}
    {seen : List Node} (hseen : cur ∈ seen) (hstack : cur ∈ frames.map Prod.fst) :
    dfs g cur frames seen =
      (some ((((frames.map Prod.fst).reverse).dropWhile (fun x => ¬ x = cur)) ++ [cur]), seen) := by
  rw [dfs.eq_def, if_pos hseen, if_pos hstack]

theorem dfs_eq_seen_adv {g : Graph} {cur : Node} {frames : List (Node × List Node)}
    {seen : List Node} {nx : Node} {fr' : List (Node × List Node)}
    (hseen : cur ∈ seen) (hstack : ¬ cur ∈ frames.map Prod.fst)
    (hadv : advance frames = some (nx, fr')) :
    dfs g cur frames seen = dfs g nx fr' seen := by
  rw [dfs.eq_def, if_pos hseen, if_neg hstack]
  split
  · rename_i heq
    rw [heq] at hadv
    cases hadv
  · rename_i nx' fr'' heq
    rw [heq] at hadv
    cases hadv
    rfl

theorem dfs_eq_seen_none {g : Graph} {cur : Node} {frames : List (Node × List Node)}
    {seen : List Node} (hseen : cur ∈ seen) (hstack : ¬ cur ∈ frames.map Prod.fst)
    (hadv : advance frames = none) :
    dfs g cur frames seen = (none, seen) := by
  rw [dfs.eq_def, if_pos hseen, if_neg hstack]
  split
  · rfl
  · rename_i nx' fr'' heq
    rw [heq] at hadv
    cases hadv

theorem dfs_eq_push_adv {g : Graph} {cur : Node} {frames : List (Node × List Node)}
    {seen : List Node} {nx : Node} {fr' : List (Node × List Node)}
    (hseen : ¬ cur ∈ seen) (hmem : cur ∈ n2iOrder g)
    (hadv : advance ((cur, succs g cur) :: frames) = some (nx, fr')) :
    dfs g cur frames seen = dfs g nx fr' (seen ++ [cur]) := by
  rw [dfs.eq_def, if_neg hseen, if_pos hmem]
  split
  · rename_i heq
    rw [heq] at hadv
    cases hadv
  · rename_i nx' fr'' heq
    rw [heq] at hadv
    cases hadv
    rfl

theorem dfs_eq_push_none {g : Graph} {cur : Node} {frames : List (Node × List Node)}
    {seen : List Node} (hseen : ¬ cur ∈ seen) (hmem : cur ∈ n2iOrder g)
    (hadv : advance ((cur, succs g cur) :: frames) = none) :
    dfs g cur frames seen = (none, seen ++ [cur]) := by
  rw [dfs.eq_def, if_neg hseen, if_pos hmem]
  split
  · rfl
  · rename_i nx' fr'' heq
    rw [heq] at hadv
    cases hadv

theorem dfs_eq_skip_adv {g : Graph} {cur : Node} {frames : List (Node × List Node)}
    {seen : List Node} {nx : Node} {fr' : List (Node × List Node)}
    (hseen : ¬ cur ∈ seen) (hmem : ¬ cur ∈ n2iOrder g)
    (hadv : advance frames = some (nx, fr')) :
    dfs g cur frames seen = dfs g nx fr' seen := by
  rw [dfs.eq_def, if_neg hseen, if_neg hmem]
  split
  · rename_i heq
    rw [heq] at hadv
    cases hadv
  · rename_i nx' fr'' heq
    rw [heq] at hadv
    cases hadv
    rfl

theorem dfs_eq_skip_none {g : Graph} {cur : Node} {frames : List (Node × List Node)}
    {seen : List Node} (hseen : ¬ cur ∈ seen) (hmem : ¬ cur ∈ n2iOrder g)
    (hadv : advance frames = none) :
    dfs g cur frames seen = (none, seen) := by
  rw [dfs.eq_def, if_neg hseen, if_neg hmem]
  split
  · rfl
  · rename_i nx' fr'' heq
    rw [heq] at hadv
    cases hadv

/-- When `dfs` reports a cycle: its first node is a key of the graph whose
dependency entry is non-empty, and the graph really contains a directed
dependency cycle. -/
theorem dfs_cycle_spec (g : Graph) (cur : Node) (frames : List (Node × List Node))
    (seen : List Node) :
    ∀ c s2, FramesInv g frames →
      (∀ f, frames.head? = some f → cur ∈ succs g f.1) →
      dfs g cur frames seen = (some c, s2) →
      (∃ e ∈ g, e.1 = c.headD "" ∧ e.2 ≠ []) ∧
        ∃ x, Relation.TransGen (fun a b => b ∈ succs g a) x x := by
  induction cur, frames, seen using dfs.induct g with
  | case1 cur frames seen hseen hstack =>
    intro c s2 hinv hcur h
    rw [dfs_eq_cycle hseen hstack] at h
    injection h with h1 h2
    injection h1 with h1
    subst h1
    obtain ⟨f, frames₀, rfl⟩ : ∃ f frames₀, frames = f :: frames₀ := by
      cases frames with
      | nil => simp at hstack
      | cons f fr => exact ⟨f, fr, rfl⟩
    have hcurf : cur ∈ succs g f.1 := hcur f rfl
    have hrev : cur ∈ (List.map Prod.fst (f :: frames₀)).reverse := by
      rw [List.mem_reverse]; exact hstack
    obtain ⟨t, ht⟩ := dropWhile_ne_cons hrev
    constructor
    · obtain ⟨e, he, hx, hp⟩ := mem_succs_iff.mp hcurf
      refine ⟨e, he, ?_, List.ne_nil_of_mem hp⟩
      rw [ht]
      simp [hx]
    · -- the reported node list is a genuine directed cycle
      have hchainrev : List.Chain' (fun a b => b ∈ succs g a)
          ((List.map Prod.fst (f :: frames₀)).reverse) := by
        rw [List.chain'_reverse]
        exact hinv.2
      have hsuff := List.dropWhile_suffix (l := (List.map Prod.fst (f :: frames₀)).reverse)
        (fun x => decide ¬ x = cur)
      rw [ht] at hsuff
      have hchain : List.Chain' (fun a b => b ∈ succs g a) (cur :: t) :=
        hchainrev.suffix hsuff
      have hlast : (cur :: t).getLast? = some f.1 := by
        obtain ⟨pre, hpre⟩ := hsuff
        have : ((List.map Prod.fst (f :: frames₀)).reverse).getLast? = some f.1 := by
          rw [List.getLast?_reverse]
          simp
        rw [← hpre, List.getLast?_append_of_ne_nil pre (by simp)] at this
        exact this
      exact ⟨cur, chain_last_transGen hchain hlast hcurf⟩
  | case2 cur frames seen hseen hstack hadv =>
    intro c s2 hinv hcur h
    rw [dfs_eq_seen_none hseen hstack hadv] at h
    cases h
  | case3 cur frames seen hseen hstack nx frames' hadv ih =>
    intro c s2 hinv hcur h
    rw [dfs_eq_seen_adv hseen hstack hadv] at h
    obtain ⟨hinv', f, hf, hnx⟩ := advance_inv hinv hadv
    exact ih c s2 hinv' (fun f' hf' => by rw [hf] at hf'; cases hf'; exact hnx) h
  | case4 cur frames seen hseen hmem hadv =>
    intro c s2 hinv hcur h
    rw [dfs_eq_push_none hseen hmem hadv] at h
    cases h
  | case5 cur frames seen hseen hmem nx frames' hadv ih =>
    intro c s2 hinv hcur h
    rw [dfs_eq_push_adv hseen hmem hadv] at h
    have hpush : FramesInv g ((cur, succs g cur) :: frames) := by
      obtain ⟨hmemi, hch⟩ := hinv
      refine ⟨?_, ?_⟩
      · intro f hf x hx
        rcases List.mem_cons.mp hf with h' | h'
        · subst h'; exact hx
        · exact hmemi f h' x hx
      · rw [List.map_cons, List.chain'_cons']
        refine ⟨?_, hch⟩
        intro y hy
        rw [List.head?_map] at hy
        cases hh : frames.head? with
        | none => rw [hh] at hy; simp at hy
        | some f =>
          rw [hh] at hy
          simp only [Option.map_some', Option.mem_def, Option.some.injEq] at hy
          subst hy
          exact hcur f hh
    obtain ⟨hinv', f, hf, hnx⟩ := advance_inv hpush hadv
    exact ih c s2 hinv' (fun f' hf' => by rw [hf] at hf'; cases hf'; exact hnx) h
  | case6 cur frames seen hseen hmem hadv =>
    intro c s2 hinv hcur h
    rw [dfs_eq_skip_none hseen hmem hadv] at h
    cases h
  | case7 cur frames seen hseen hmem nx frames' hadv ih =>
    intro c s2 hinv hcur h
    rw [dfs_eq_skip_adv hseen hmem hadv] at h
    obtain ⟨hinv', f, hf, hnx⟩ := advance_inv hinv hadv
    exact ih c s2 hinv' (fun f' hf' => by rw [hf] at hf'; cases hf'; exact hnx) h

theorem findCycleAux_spec (g : Graph) (roots : List Node) :
    ∀ seen c, findCycleAux g roots seen = some c →
      (∃ e ∈ g, e.1 = c.headD "" ∧ e.2 ≠ []) ∧
        ∃ x, Relation.TransGen (fun a b => b ∈ succs g a) x x := by
  induction roots with
  | nil => intro seen c h; simp [findCycleAux] at h
  | cons r rest ih =>
    intro seen c h
    rw [findCycleAux] at h
    by_cases hr : r ∈ seen
    · rw [if_pos hr] at h
      exact ih seen c h
    · rw [if_neg hr] at h
      cases hdfs : dfs g r [] seen with
      | mk o seen' =>
        rw [hdfs] at h
        cases o with
        | none => exact ih seen' c h
        | some c' =>
          simp only [Option.some.injEq] at h
          subst h
          exact dfs_cycle_spec g r [] seen c' seen'
            ⟨by simp, by simp⟩ (fun f hf => by simp at hf) hdfs

/-- A cycle reported by `_find_cycle` starts at a key of the graph whose
dependency set is non-empty. -/
theorem findCycle_head {g : Graph} {c : List Node} (h : findCycle g = some c) :
    ∃ e ∈ g, e.1 = c.headD "" ∧ e.2 ≠ [] :=
  (findCycleAux_spec g (n2iOrder g) [] c h).1

/-- A cycle reported by `_find_cycle` witnesses a real directed dependency
cycle in the graph. -/
theorem findCycle_sound {g : Graph} {c : List Node} (h : findCycle g = some c) :
    ∃ x, Relation.TransGen (fun a b => b ∈ succs g a) x x :=
  (findCycleAux_spec g (n2iOrder g) [] c h).2

/-! ## `ignore_cycles` -/

/-- `graph.pop(node_to_remove, None)`: delete the entry keyed by `n` (if
any); the node is *not* removed from other nodes' dependency sets. -/
def eraseKey (g : Graph) (n : Node) : Graph := g.eraseP (fun e => e.1 = n)

theorem length_eraseKey_lt {g : Graph} {n : Node} (h : ∃ e ∈ g, e.1 = n) :
    (eraseKey g n).length < g.length := by
  obtain ⟨e, he, hn⟩ := h
  have := List.length_eraseP_add_one (p := fun e => decide (e.1 = n)) he (by simp [hn])
  unfold eraseKey
  omega

/-- `ignore_cycles`: try a full topological sort; on `CycleError`, pop the
first node of the reported cycle (as a key only) and retry on the reduced
graph. -/
def ignore_cycles (g : Graph) : List Node :=
  match h : findCycle g with
  | none => staticOrder g
  | some c => ignore_cycles (eraseKey g (c.headD ""))
termination_by g.length
decreasing_by
  exact length_eraseKey_lt (by obtain ⟨e, he, hk, _⟩ := findCycle_head h; exact ⟨e, he, hk⟩)

/-- `ignore_cycles` instrumented with the sequence of removed nodes (the
nodes announced by the `Removing node ... to resolve cycle.` print). -/
def ignore_cyclesTrace (g : Graph) : List Node × List Node :=
  match h : findCycle g with
  | none => ([], staticOrder g)
  | some c =>
    let r := ignore_cyclesTrace (eraseKey g (c.headD ""))
    ((c.headD "") :: r.1, r.2)
termination_by g.length
decreasing_by
  exact length_eraseKey_lt (by obtain ⟨e, he, hk, _⟩ := findCycle_head h; exact ⟨e, he, hk⟩)

theorem ignore_cycles_eq_none {g : Graph} (h : findCycle g = none) :
    ignore_cycles g = staticOrder g := by
  rw [ignore_cycles.eq_def, h]

theorem ignore_cycles_eq_some {g : Graph} {c : List Node} (h : findCycle g = some c) :
    ignore_cycles g = ignore_cycles (eraseKey g (c.headD "")) := by
  rw [ignore_cycles.eq_def, h]

theorem ignore_cyclesTrace_eq_none {g : Graph} (h : findCycle g = none) :
    ignore_cyclesTrace g = ([], staticOrder g) := by
  rw [ignore_cyclesTrace.eq_def, h]

theorem ignore_cyclesTrace_eq_some {g : Graph} {c : List Node} (h : findCycle g = some c) :
    ignore_cyclesTrace g = ((c.headD "") :: (ignore_cyclesTrace (eraseKey g (c.headD ""))).1,
      (ignore_cyclesTrace (eraseKey g (c.headD ""))).2) := by
  rw [ignore_cyclesTrace.eq_def, h]

/-! ## Basic facts about the interning order, lookups and edges -/

theorem mem_insertNew {l : List Node} {n x : Node} :
    x ∈ insertNew l n ↔ x ∈ l ∨ x = n := by
  unfold insertNew
  by_cases h : n ∈ l
  · rw [if_pos h]
    constructor
    · exact Or.inl
    · rintro (hx | rfl)
      · exact hx
      · exact h
  · rw [if_neg h]
    simp

theorem nodup_insertNew {l : List Node} (h : l.Nodup) (n : Node) :
    (insertNew l n).Nodup := by
  unfold insertNew
  by_cases hn : n ∈ l
  · rwa [if_pos hn]
  · rw [if_neg hn, List.nodup_append]
    refine ⟨h, List.nodup_singleton n, ?_⟩
    intro a ha hmem
    rw [List.mem_singleton] at hmem
    subst hmem
    exact hn ha

theorem mem_foldl_insertNew {l : List Node} :
    ∀ {acc : List Node} {x : Node}, x ∈ l.foldl insertNew acc ↔ x ∈ acc ∨ x ∈ l := by
  induction l with
  | nil => simp
  | cons a as ih =>
    intro acc x
    rw [List.foldl_cons, ih, mem_insertNew]
    constructor
    · rintro ((h | rfl) | h)
      · exact Or.inl h
      · exact Or.inr (List.mem_cons_self _ _)
      · exact Or.inr (List.mem_cons_of_mem _ h)
    · rintro (h | h)
      · exact Or.inl (Or.inl h)
      · rcases List.mem_cons.mp h with rfl | h'
        · exact Or.inl (Or.inr rfl)
        · exact Or.inr h'

theorem nodup_foldl_insertNew {l : List Node} :
    ∀ {acc : List Node}, acc.Nodup → (l.foldl insertNew acc).Nodup := by
  induction l with
  | nil => intro acc h; exact h
  | cons a as ih =>
    intro acc h
    exact ih (nodup_insertNew h a)

theorem mem_n2iOrder_aux {g : Graph} :
    ∀ {acc : List Node} {x : Node},
      x ∈ g.foldl (fun acc e => e.2.foldl insertNew (insertNew acc e.1)) acc ↔
        x ∈ acc ∨ x ∈ keys g ∨ ∃ e ∈ g, x ∈ e.2 := by
  induction g with
  | nil => simp [keys]
  | cons e es ih =>
    intro acc x
    rw [List.foldl_cons, ih, mem_foldl_insertNew, mem_insertNew]
    simp only [keys, List.map_cons, List.mem_cons]
    constructor
    · rintro (((h | rfl) | h) | h | h)
      · exact Or.inl h
      · exact Or.inr (Or.inl (Or.inl rfl))
      · exact Or.inr (Or.inr ⟨e, Or.inl rfl, h⟩)
      · exact Or.inr (Or.inl (Or.inr h))
      · obtain ⟨e', he', hx⟩ := h
        exact Or.inr (Or.inr ⟨e', Or.inr he', hx⟩)
    · rintro (h | (rfl | h) | h)
      · exact Or.inl (Or.inl (Or.inl h))
      · exact Or.inl (Or.inl (Or.inr rfl))
      · exact Or.inr (Or.inl h)
      · obtain ⟨e', he', hx⟩ := h
        rcases he' with rfl | he''
        · exact Or.inl (Or.inr hx)
        · exact Or.inr (Or.inr ⟨e', he'', hx⟩)

theorem mem_n2iOrder {g : Graph} {x : Node} :
    x ∈ n2iOrder g ↔ x ∈ keys g ∨ ∃ e ∈ g, x ∈ e.2 := by
  unfold n2iOrder
  rw [mem_n2iOrder_aux]
  simp

theorem nodup_n2iOrder_aux {g : Graph} :
    ∀ {acc : List Node}, acc.Nodup →
      (g.foldl (fun acc e => e.2.foldl insertNew (insertNew acc e.1)) acc).Nodup := by
  induction g with
  | nil => intro acc h; exact h
  | cons e es ih =>
    intro acc h
    exact ih (nodup_foldl_insertNew (nodup_insertNew h e.1))

theorem n2iOrder_nodup (g : Graph) : (n2iOrder g).Nodup :=
  nodup_n2iOrder_aux List.nodup_nil

theorem keys_subset_n2iOrder {g : Graph} {x : Node} (h : x ∈ keys g) : x ∈ n2iOrder g :=
  mem_n2iOrder.mpr (Or.inl h)

theorem lookupG_eq_some_iff {g : Graph} {n : Node} {ds : List Node} :
    lookupG g n = some ds ↔ ∃ e, g.find? (fun e => e.1 = n) = some e ∧ e.1 = n ∧ e.2 = ds := by
  unfold lookupG
  cases hf : g.find? (fun e => e.1 = n) with
  | none => simp
  | some e =>
    have := List.find?_some hf
    simp only [decide_eq_true_eq] at this
    simp [this]

theorem mem_of_lookupG {g : Graph} {n : Node} {ds : List Node} (h : lookupG g n = some ds) :
    (n, ds) ∈ g := by
  obtain ⟨e, hf, h1, h2⟩ := lookupG_eq_some_iff.mp h
  have := List.mem_of_find?_eq_some hf
  have he : e = (n, ds) := by
    cases e; simp_all
  rwa [he] at this

theorem keys_cons (e : Node × List Node) (es : Graph) : keys (e :: es) = e.1 :: keys es := rfl

theorem lookupG_of_mem {g : Graph} {n : Node} {ds : List Node}
    (hnd : (keys g).Nodup) (h : (n, ds) ∈ g) : lookupG g n = some ds := by
  induction g with
  | nil => simp at h
  | cons e es ih =>
    rw [keys_cons, List.nodup_cons] at hnd
    rcases List.mem_cons.mp h with rfl | h'
    · unfold lookupG
      rw [List.find?_cons_of_pos _ (by simp)]
      rfl
    · have hne : ¬ e.1 = n := by
        intro hcontra
        have hmem : n ∈ keys es := List.mem_map_of_mem Prod.fst h'
        exact hnd.1 (hcontra ▸ hmem)
      unfold lookupG
      rw [List.find?_cons_of_neg _ (by simpa using hne)]
      exact ih hnd.2 h'

theorem preds_eq_of_mem {g : Graph} {n : Node} {ds : List Node}
    (hnd : (keys g).Nodup) (h : (n, ds) ∈ g) : preds g n = ds := by
  unfold preds
  rw [lookupG_of_mem hnd h]
  rfl

/-- Direction needing no well-formedness: a dependency edge gives a successor
edge. -/
theorem mem_succs_of_mem_preds {g : Graph} {p x : Node} (h : p ∈ preds g x) :
    x ∈ succs g p := by
  unfold preds at h
  cases hl : lookupG g x with
  | none => rw [hl] at h; simp at h
  | some ds =>
    rw [hl] at h
    simp only [Option.getD_some] at h
    exact mem_succs_iff.mpr ⟨(x, ds), mem_of_lookupG hl, rfl, h⟩

/-- Under distinct keys, successor and dependency edges coincide. -/
theorem mem_preds_of_mem_succs {g : Graph} (hnd : (keys g).Nodup) {p x : Node}
    (h : x ∈ succs g p) : p ∈ preds g x := by
  obtain ⟨e, he, hx, hp⟩ := mem_succs_iff.mp h
  have : preds g x = e.2 := by
    have : (x, e.2) ∈ g := by
      cases e; simp_all
    exact preds_eq_of_mem hnd this
  rw [this]
  exact hp

theorem preds_subset_n2iOrder {g : Graph} {p x : Node} (h : p ∈ preds g x) :
    p ∈ n2iOrder g := by
  unfold preds at h
  cases hl : lookupG g x with
  | none => rw [hl] at h; simp at h
  | some ds =>
    rw [hl] at h
    simp only [Option.getD_some] at h
    exact mem_n2iOrder.mpr (Or.inr ⟨(x, ds), mem_of_lookupG hl, h⟩)

theorem succs_nodup {g : Graph} (hnd : (keys g).Nodup) (p : Node) :
    (succs g p).Nodup := by
  unfold succs
  have hsub : List.Sublist (g.filter (fun e => decide (p ∈ e.2))) g := List.filter_sublist g
  have : List.Sublist ((g.filter (fun e => decide (p ∈ e.2))).map Prod.fst) (g.map Prod.fst) :=
    hsub.map Prod.fst
  exact (hnd : (g.map Prod.fst).Nodup).sublist this

theorem preds_nodup {g : Graph} (hwf : WFGraph g) (x : Node) :
    (preds g x).Nodup := by
  unfold preds
  cases hl : lookupG g x with
  | none => simp
  | some ds =>
    simpa using hwf.2 (x, ds) (mem_of_lookupG hl)

/-! ## Characterizing one `done` step on counter lists of the canonical form -/

theorem find?_mapped_mem {N : List Node} (cf : Node → Int) {s : Node} (hs : s ∈ N) :
    (N.map (fun x => (x, cf x))).find? (fun e => e.1 = s) = some (s, cf s) := by
  induction N with
  | nil => simp at hs
  | cons a as ih =>
    rw [List.map_cons]
    by_cases ha : a = s
    · subst ha
      rw [List.find?_cons_of_pos _ (by simp)]
    · rcases List.mem_cons.mp hs with rfl | hs'
      · exact absurd rfl ha
      · rw [List.find?_cons_of_neg _ (by simp [ha])]
        exact ih hs'

theorem markOut_mapped (N : List Node) (cf : Node → Int) (n : Node) :
    markOut (N.map (fun x => (x, cf x))) n =
      N.map (fun x => (x, if x = n then (-1 : Int) else cf x)) := by
  unfold markOut
  rw [List.map_map]
  congr 1
  funext x
  by_cases hx : x = n <;> simp [hx]

theorem decOne_mapped (N : List Node) (cf : Node → Int) (s : Node) :
    decOne (N.map (fun x => (x, cf x))) s =
      N.map (fun x => (x, if x = s then cf x - 1 else cf x)) := by
  unfold decOne
  rw [List.map_map]
  congr 1
  funext x
  by_cases hx : x = s <;> simp [hx]

theorem processSuccs_go (N : List Node) :
    ∀ (ss : List Node) (cf : Node → Int) (acc : List Node), ss.Nodup →
      (∀ s ∈ ss, s ∈ N) →
      ss.foldl succStep (N.map (fun x => (x, cf x)), acc) =
        (N.map (fun x => (x, if x ∈ ss then cf x - 1 else cf x)),
          acc ++ ss.filter (fun s => cf s = 1)) := by
  intro ss
  induction ss with
  | nil =>
    intro cf acc _ _
    simp
  | cons s rest ih =>
    intro cf acc hnd hsub
    rw [List.nodup_cons] at hnd
    rw [List.foldl_cons]
    have hstep : succStep (N.map (fun x => (x, cf x)), acc) s =
        (N.map (fun x => (x, if x = s then cf x - 1 else cf x)),
          if cf s = 1 then acc ++ [s] else acc) := by
      unfold succStep
      rw [find?_mapped_mem cf (hsub s (List.mem_cons_self _ _))]
      dsimp only
      rw [decOne_mapped]
      by_cases h1 : cf s - 1 = 0
      · rw [if_pos h1, if_pos (by omega)]
      · rw [if_neg h1, if_neg (by omega)]
    rw [hstep]
    rw [ih (fun x => if x = s then cf x - 1 else cf x)
      (if cf s = 1 then acc ++ [s] else acc) hnd.2
      (fun x hx => hsub x (List.mem_cons_of_mem _ hx))]
    have hcounts : N.map (fun x => (x, if x ∈ rest then
          (if x = s then cf x - 1 else cf x) - 1 else (if x = s then cf x - 1 else cf x))) =
        N.map (fun x => (x, if x ∈ s :: rest then cf x - 1 else cf x)) := by
      congr 1
      funext x
      by_cases hx : x = s
      · subst hx
        simp [hnd.1]
      · simp only [hx, if_neg hx, if_false, List.mem_cons]
        by_cases hr : x ∈ rest
        · simp [hr, hx]
        · simp [hr, hx]
    have hready : rest.filter (fun s' => (if s' = s then cf s' - 1 else cf s') = 1) =
        rest.filter (fun s' => cf s' = 1) := by
      apply List.filter_congr
      intro y hy
      have hys : ¬ y = s := fun h => hnd.1 (h ▸ hy)
      simp [hys]
    rw [hcounts, hready, List.filter_cons]
    by_cases hcf : cf s = 1
    · rw [if_pos hcf, if_pos (by simpa using hcf)]
      simp
    · rw [if_neg hcf, if_neg (by simpa using hcf)]

theorem processSuccs_mapped (N : List Node) (ss : List Node) (cf : Node → Int)
    (hnd : ss.Nodup) (hsub : ∀ s ∈ ss, s ∈ N) :
    processSuccs (N.map (fun x => (x, cf x))) ss =
      (N.map (fun x => (x, if x ∈ ss then cf x - 1 else cf x)),
        ss.filter (fun s => cf s = 1)) := by
  unfold processSuccs
  rw [processSuccs_go N ss cf [] hnd hsub]
  simp

/-! ## Acyclicity -/

/-- Acyclicity of the dependency graph, stated through the standard finite-DAG
characterization: some ranking places every dependency strictly below its
dependent. -/
def Acyclic (g : Graph) : Prop :=
  ∃ rank : Node → Nat, ∀ e ∈ g, ∀ p ∈ e.2, rank p < rank e.1

theorem rank_lt_of_succs {g : Graph} {rank : Node → Nat}
    (hrank : ∀ e ∈ g, ∀ p ∈ e.2, rank p < rank e.1) {a b : Node} (h : b ∈ succs g a) :
    rank a < rank b := by
  obtain ⟨e, he, hb, ha⟩ := mem_succs_iff.mp h
  exact hb ▸ hrank e he a ha

theorem transGen_rank_lt {g : Graph} {rank : Node → Nat}
    (hrank : ∀ e ∈ g, ∀ p ∈ e.2, rank p < rank e.1) {x y : Node}
    (h : Relation.TransGen (fun a b => b ∈ succs g a) x y) : rank x < rank y := by
  induction h with
  | single h => exact rank_lt_of_succs hrank h
  | tail _ hsucc ih => exact lt_trans ih (rank_lt_of_succs hrank hsucc)

/-- On an acyclic graph `_find_cycle` finds nothing, so `prepare` does not
raise `CycleError`. -/
theorem findCycle_eq_none_of_acyclic {g : Graph} (hA : Acyclic g) :
    findCycle g = none := by
  obtain ⟨rank, hrank⟩ := hA
  cases hfc : findCycle g with
  | none => rfl
  | some c =>
    obtain ⟨x, hx⟩ := findCycle_sound hfc
    exact absurd (transGen_rank_lt hrank hx) (lt_irrefl _)

theorem exists_min_rank (rank : Node → Nat) :
    ∀ (S : List Node), S ≠ [] → ∃ m ∈ S, ∀ y ∈ S, rank m ≤ rank y := by
  intro S
  induction S with
  | nil => intro h; exact absurd rfl h
  | cons a as ih =>
    intro _
    by_cases has : as = []
    · subst has
      refine ⟨a, List.mem_cons_self _ _, ?_⟩
      intro y hy
      rcases List.mem_cons.mp hy with rfl | hy'
      · exact le_refl _
      · simp at hy'
    · obtain ⟨m, hm, hmin⟩ := ih has
      by_cases hle : rank a ≤ rank m
      · refine ⟨a, List.mem_cons_self _ _, ?_⟩
        intro y hy
        rcases List.mem_cons.mp hy with rfl | hy'
        · exact le_refl _
        · exact le_trans hle (hmin y hy')
      · refine ⟨m, List.mem_cons_of_mem _ hm, ?_⟩
        intro y hy
        rcases List.mem_cons.mp hy with rfl | hy'
        · exact le_of_lt (lt_of_not_le hle)
        · exact hmin y hy'

/-! ## Counting lemmas about pending-dependency sets -/

theorem filter_out_snoc_congr {l out : List Node} {n : Node} (hnl : ¬ n ∈ l) :
    l.filter (fun p => ¬ p ∈ out ++ [n]) = l.filter (fun p => ¬ p ∈ out) := by
  apply List.filter_congr
  intro x hx
  have hxn : ¬ x = n := fun h => hnl (h ▸ hx)
  simp [hxn]

theorem length_filter_out_snoc {l out : List Node} {n : Node}
    (hl : l.Nodup) (hn : n ∈ l) (hout : ¬ n ∈ out) :
    (l.filter (fun p => ¬ p ∈ out ++ [n])).length + 1 =
      (l.filter (fun p => ¬ p ∈ out)).length := by
  induction l with
  | nil => simp at hn
  | cons a as ih =>
    rw [List.nodup_cons] at hl
    rw [List.filter_cons, List.filter_cons]
    rcases List.mem_cons.mp hn with hna | hn'
    · subst hna
      have hcong : as.filter (fun p => ¬ p ∈ out ++ [n]) = as.filter (fun p => ¬ p ∈ out) :=
        filter_out_snoc_congr hl.1
      rw [hcong]
      have h1 : ¬ (¬ n ∈ out ++ [n]) := by simp
      rw [if_neg (by simp), if_pos (by simpa using hout)]
      simp
    · have hna : ¬ a = n := by
        rintro rfl
        exact hl.1 hn'
      have hrec := ih hl.2 hn'
      by_cases hao : a ∈ out
      · have c1 : ¬ (¬ a ∈ out ++ [n]) := by simp [hao]
        have c2 : ¬ (¬ a ∈ out) := by simp [hao]
        rw [if_neg (by simpa using c1), if_neg (by simpa using c2)]
        exact hrec
      · have c1 : (¬ a ∈ out ++ [n]) := by simp [hao, hna]
        rw [if_pos (by simpa using c1), if_pos (by simpa using hao)]
        simp only [List.length_cons]
        omega

theorem length_le_one_of_nodup_all_eq {l : List Node} {a : Node} (hl : l.Nodup)
    (h : ∀ x ∈ l, x = a) : l.length ≤ 1 := by
  cases l with
  | nil => simp
  | cons b bs =>
    cases bs with
    | nil => simp
    | cons c cs =>
      exfalso
      rw [List.nodup_cons] at hl
      have hb := h b (by simp)
      have hc := h c (by simp)
      exact hl.1 (by rw [hb, hc]; simp)

/-! ## The `static_order` loop invariant and its preservation -/

/-- Every emitted node's dependencies appear strictly earlier in the emission
list: the ordering contract of a topological order. -/
def TopoOrdered (g : Graph) (out : List Node) : Prop :=
  ∀ l1 s l2, out = l1 ++ s :: l2 → ∀ p ∈ preds g s, p ∈ l1

theorem topoOrdered_nil (g : Graph) : TopoOrdered g [] := by
  intro l1 s l2 h p _
  exact absurd h (by simp)

theorem topoOrdered_snoc {g : Graph} {out : List Node} {n : Node}
    (h : TopoOrdered g out) (hn : ∀ p ∈ preds g n, p ∈ out) :
    TopoOrdered g (out ++ [n]) := by
  intro l1 s l2 heq p hp
  rcases List.eq_nil_or_concat l2 with rfl | ⟨L, y, hL⟩
  · obtain ⟨h1, h2⟩ := List.append_inj' heq (by simp)
    injection h2 with h2 _
    subst h1
    subst h2
    exact hn p hp
  · subst hL
    have heq' : (l1 ++ s :: L) ++ [y] = out ++ [n] := by
      rw [List.concat_eq_append] at heq
      simpa using heq.symm
    obtain ⟨h1, _⟩ := List.append_inj' heq' (by simp)
    exact h l1 s L h1.symm p hp

/-- The invariant tying the counter list, the ready queue and the emitted
prefix `out` together. -/
def KahnInv (g : Graph) (counts : List (Node × Int)) (queue out : List Node) : Prop :=
  ∃ cf : Node → Int,
    counts = (n2iOrder g).map (fun x => (x, cf x)) ∧
    (∀ x ∈ n2iOrder g, ¬ x ∈ out →
      cf x = (((preds g x).filter (fun p => ¬ p ∈ out)).length : Int)) ∧
    (∀ x ∈ n2iOrder g, x ∈ out → cf x < 0) ∧
    (∀ x, (x ∈ out ∨ x ∈ queue) ↔ (x ∈ n2iOrder g ∧ ∀ p ∈ preds g x, p ∈ out)) ∧
    (out ++ queue).Nodup ∧
    TopoOrdered g out

theorem kahnLoop_nil (g : Graph) (counts : List (Node × Int)) :
    kahnLoop g counts [] = [] := by
  rw [kahnLoop.eq_def]

theorem kahnLoop_cons (g : Graph) (counts : List (Node × Int)) (n : Node)
    (rest : List Node) :
    kahnLoop g counts (n :: rest) =
      n :: kahnLoop g (processSuccs (markOut counts n) (succs g n)).1
        (rest ++ (processSuccs (markOut counts n) (succs g n)).2) := by
  rw [kahnLoop.eq_def]

/-- An entry of the graph behind a dependency membership. -/
theorem exists_entry_of_mem_preds {g : Graph} {p x : Node} (h : p ∈ preds g x) :
    ∃ e ∈ g, e.1 = x ∧ p ∈ e.2 := by
  unfold preds at h
  cases hl : lookupG g x with
  | none => rw [hl] at h; simp at h
  | some ds =>
    rw [hl] at h
    simp only [Option.getD_some] at h
    exact ⟨(x, ds), mem_of_lookupG hl, rfl, h⟩

/-- Main loop lemma: from any state satisfying the invariant, the loop emits
exactly the remaining nodes, and the whole emission list is topologically
ordered. -/
theorem kahnLoop_complete (g : Graph) (hWF : WFGraph g) (rank : Node → Nat)
    (hrank : ∀ e ∈ g, ∀ p ∈ e.2, rank p < rank e.1) :
    ∀ counts queue, ∀ out, KahnInv g counts queue out →
      (out ++ kahnLoop g counts queue).Perm (n2iOrder g) ∧
        TopoOrdered g (out ++ kahnLoop g counts queue) := by
  intro counts queue
  induction counts, queue using kahnLoop.induct g with
  | case1 counts =>
    intro out hinv
    obtain ⟨cf, hcounts, hpend, hdone, hmem, hnodup, htopo⟩ := hinv
    rw [kahnLoop_nil, List.append_nil]
    rw [List.append_nil] at hnodup
    have hsubN : out ⊆ n2iOrder g := by
      intro x hx
      exact ((hmem x).mp (Or.inl hx)).1
    have hNsub : n2iOrder g ⊆ out := by
      intro x hxN
      by_contra hxout
      have hSne : (n2iOrder g).filter (fun y => ¬ y ∈ out) ≠ [] := by
        intro hnil
        have : x ∈ (n2iOrder g).filter (fun y => ¬ y ∈ out) := by
          rw [List.mem_filter]
          exact ⟨hxN, by simpa using hxout⟩
        rw [hnil] at this
        simp at this
      obtain ⟨m, hmS, hmin⟩ := exists_min_rank rank _ hSne
      rw [List.mem_filter] at hmS
      obtain ⟨hmN, hmout⟩ := hmS
      rw [decide_eq_true_eq] at hmout
      have hnotmem : ¬ (m ∈ out ∨ m ∈ ([] : List Node)) := by
        rintro (h | h)
        · exact hmout h
        · simp at h
      have := (hmem m).not.mp hnotmem
      rw [not_and] at this
      have hex : ¬ ∀ p ∈ preds g m, p ∈ out := this hmN
      push_neg at hex
      obtain ⟨p, hp, hpout⟩ := hex
      have hpN : p ∈ n2iOrder g := preds_subset_n2iOrder hp
      have hpS : p ∈ (n2iOrder g).filter (fun y => ¬ y ∈ out) := by
        rw [List.mem_filter]
        exact ⟨hpN, by simpa using hpout⟩
      obtain ⟨e, he, hex1, hpe⟩ := exists_entry_of_mem_preds hp
      have hlt : rank p < rank m := hex1 ▸ hrank e he p hpe
      exact absurd (hmin p hpS) (by omega)
    refine ⟨List.Subperm.antisymm (hnodup.subperm hsubN)
      ((n2iOrder_nodup g).subperm hNsub), htopo⟩
  | case2 counts n rest p ih =>
    intro out hinv
    obtain ⟨cf, hcounts, hpend, hdone, hmem, hnodup, htopo⟩ := hinv
    subst hcounts
    have hnq := (hmem n).mp (Or.inr (List.mem_cons_self _ _))
    obtain ⟨hnN, hnpreds⟩ := hnq
    have hnout : ¬ n ∈ out := by
      intro hcontra
      rw [List.nodup_append] at hnodup
      exact hnodup.2.2 hcontra (List.mem_cons_self _ _)
    have hself : ¬ n ∈ preds g n := fun h => hnout (hnpreds n h)
    have hsuccsN : ∀ s ∈ succs g n, s ∈ n2iOrder g :=
      fun s hs => keys_subset_n2iOrder (succs_subset_keys hs)
    have hsnodup : (succs g n).Nodup := succs_nodup hWF.1 n
    have hMO := markOut_mapped (n2iOrder g) cf n
    have hPS : processSuccs ((n2iOrder g).map (fun x => (x, if x = n then (-1 : Int) else cf x)))
        (succs g n) =
        ((n2iOrder g).map (fun x => (x,
          if x ∈ succs g n then (if x = n then (-1 : Int) else cf x) - 1
          else (if x = n then (-1 : Int) else cf x))),
          (succs g n).filter (fun s => (if s = n then (-1 : Int) else cf s) = 1)) :=
      processSuccs_mapped (n2iOrder g) (succs g n)
        (fun x => if x = n then (-1 : Int) else cf x) hsnodup hsuccsN
    rw [kahnLoop_cons, hMO, hPS]
    dsimp only
    -- characterize the fresh ready nodes
    have hready_mem : ∀ x, x ∈ (succs g n).filter
        (fun s => (if s = n then (-1 : Int) else cf s) = 1) ↔
        (x ∈ succs g n ∧ (if x = n then (-1 : Int) else cf x) = 1) := by
      intro x
      rw [List.mem_filter]
      simp
    have hready_props : ∀ x ∈ (succs g n).filter
        (fun s => (if s = n then (-1 : Int) else cf s) = 1),
        x ∈ n2iOrder g ∧ ¬ x ∈ out ∧ ¬ x = n ∧ ¬ x ∈ rest := by
      intro x hx
      rw [hready_mem] at hx
      obtain ⟨hxs, hxcf⟩ := hx
      have hxn : ¬ x = n := by
        intro hcontra
        rw [if_pos hcontra] at hxcf
        omega
      rw [if_neg hxn] at hxcf
      have hxN : x ∈ n2iOrder g := hsuccsN x hxs
      have hxout : ¬ x ∈ out := by
        intro hcontra
        have := hdone x hxN hcontra
        omega
      have hnpx : n ∈ preds g x := mem_preds_of_mem_succs hWF.1 hxs
      have hxrest : ¬ x ∈ rest := by
        intro hcontra
        have := ((hmem x).mp (Or.inr (List.mem_cons_of_mem _ hcontra))).2
        exact hnout (this n hnpx)
      exact ⟨hxN, hxout, hxn, hxrest⟩
    -- the new invariant for the recursive call
    have hinv' : KahnInv g ((n2iOrder g).map (fun x => (x,
        if x ∈ succs g n then (if x = n then (-1 : Int) else cf x) - 1
        else (if x = n then (-1 : Int) else cf x))))
        (rest ++ (succs g n).filter (fun s => (if s = n then (-1 : Int) else cf s) = 1))
        (out ++ [n]) := by
      refine ⟨_, rfl, ?_, ?_, ?_, ?_, topoOrdered_snoc htopo hnpreds⟩
      · -- pending counters
        intro x hxN hxout'
        have hxout : ¬ x ∈ out := fun h => hxout' (List.mem_append_left _ h)
        have hxn : ¬ x = n := fun h => hxout' (h ▸ List.mem_append_right _ (by simp))
        have hold := hpend x hxN hxout
        by_cases hxs : x ∈ succs g n
        · rw [if_pos hxs, if_neg hxn]
          have hnpx : n ∈ preds g x := mem_preds_of_mem_succs hWF.1 hxs
          have hcount := length_filter_out_snoc (preds_nodup hWF x) hnpx hnout
          rw [hold]
          omega
        · rw [if_neg hxs, if_neg hxn]
          have hnpx : ¬ n ∈ preds g x := fun h => hxs (mem_succs_of_mem_preds h)
          rw [hold, filter_out_snoc_congr hnpx]
      · -- emitted counters are negative
        intro x hxN hxout'
        rcases List.mem_append.mp hxout' with hxout | hxn
        · have hxn : ¬ x = n := fun h => hnout (h ▸ hxout)
          have := hdone x hxN hxout
          by_cases hxs : x ∈ succs g n
          · rw [if_pos hxs, if_neg hxn]; omega
          · rw [if_neg hxs, if_neg hxn]; omega
        · rw [List.mem_singleton] at hxn
          subst hxn
          by_cases hxs : x ∈ succs g x
          · rw [if_pos hxs, if_pos rfl]; omega
          · rw [if_neg hxs, if_pos rfl]; omega
      · -- queue/emitted membership characterization
        intro x
        constructor
        · rintro (hx' | hx')
          · rcases List.mem_append.mp hx' with hx | hx
            · obtain ⟨h1, h2⟩ := (hmem x).mp (Or.inl hx)
              exact ⟨h1, fun p hp => List.mem_append_left _ (h2 p hp)⟩
            · rw [List.mem_singleton] at hx
              subst hx
              exact ⟨hnN, fun p hp => List.mem_append_left _ (hnpreds p hp)⟩
          · rcases List.mem_append.mp hx' with hx | hx
            · obtain ⟨h1, h2⟩ := (hmem x).mp (Or.inr (List.mem_cons_of_mem _ hx))
              exact ⟨h1, fun p hp => List.mem_append_left _ (h2 p hp)⟩
            · obtain ⟨hxN, hxout, hxn, _⟩ := hready_props x hx
              refine ⟨hxN, ?_⟩
              intro p hp
              by_cases hpo : p ∈ out
              · exact List.mem_append_left _ hpo
              · -- the only pending dependency was n itself
                rw [hready_mem] at hx
                obtain ⟨hxs, hxcf⟩ := hx
                rw [if_neg hxn] at hxcf
                have hold := hpend x hxN hxout
                rw [hxcf] at hold
                have hlen : ((preds g x).filter (fun p => ¬ p ∈ out)).length = 1 := by
                  omega
                obtain ⟨a, ha⟩ := List.length_eq_one.mp hlen
                have hpfil : p ∈ (preds g x).filter (fun p => ¬ p ∈ out) := by
                  rw [List.mem_filter]
                  exact ⟨hp, by simpa using hpo⟩
                have hnfil : n ∈ (preds g x).filter (fun p => ¬ p ∈ out) := by
                  rw [List.mem_filter]
                  exact ⟨mem_preds_of_mem_succs hWF.1 hxs, by simpa using hnout⟩
                rw [ha, List.mem_singleton] at hpfil hnfil
                rw [hpfil, ← hnfil]
                exact List.mem_append_right _ (by simp)
        · rintro ⟨hxN, hxpr⟩
          by_cases hold : x ∈ out ∨ x ∈ n :: rest
          · rcases hold with hx | hx
            · exact Or.inl (List.mem_append_left _ hx)
            · rcases List.mem_cons.mp hx with rfl | hx'
              · exact Or.inl (List.mem_append_right _ (by simp))
              · exact Or.inr (List.mem_append_left _ hx')
          · push_neg at hold
            obtain ⟨hxout, hxq⟩ := hold
            have hxn : ¬ x = n := fun h => hxq (h ▸ List.mem_cons_self _ _)
            have hxrest : ¬ x ∈ rest := fun h => hxq (List.mem_cons_of_mem _ h)
            have hnotold : ¬ (x ∈ out ∨ x ∈ n :: rest) := by
              rintro (h | h)
              · exact hxout h
              · exact hxq h
            have := (hmem x).not.mp hnotold
            rw [not_and] at this
            have hex : ¬ ∀ p ∈ preds g x, p ∈ out := this hxN
            push_neg at hex
            obtain ⟨p₀, hp₀, hp₀out⟩ := hex
            have hp₀n : p₀ = n := by
              rcases List.mem_append.mp (hxpr p₀ hp₀) with h | h
              · exact absurd h hp₀out
              · simpa using h
            subst hp₀n
            have hxs : x ∈ succs g p₀ := mem_succs_of_mem_preds hp₀
            refine Or.inr (List.mem_append_right _ ?_)
            rw [hready_mem]
            refine ⟨hxs, ?_⟩
            rw [if_neg hxn]
            have hold := hpend x hxN hxout
            have hall : ∀ q ∈ (preds g x).filter (fun p => ¬ p ∈ out), q = p₀ := by
              intro q hq
              rw [List.mem_filter] at hq
              obtain ⟨hq1, hq2⟩ := hq
              rw [decide_eq_true_eq] at hq2
              rcases List.mem_append.mp (hxpr q hq1) with h | h
              · exact absurd h hq2
              · simpa using h
            have hle := length_le_one_of_nodup_all_eq
              ((preds_nodup hWF x).filter _) hall
            have hmem₀ : p₀ ∈ (preds g x).filter (fun p => ¬ p ∈ out) := by
              rw [List.mem_filter]
              exact ⟨hp₀, by simpa using hp₀out⟩
            have hge : 0 < ((preds g x).filter (fun p => ¬ p ∈ out)).length :=
              List.length_pos.mpr (List.ne_nil_of_mem hmem₀)
            rw [hold]
            have : ((preds g x).filter (fun p => ¬ p ∈ out)).length = 1 := by omega
            rw [this]
            rfl
      · -- no duplicates among emitted and queued nodes
        have hbase : ((out ++ [n]) ++ rest).Nodup := by
          have : out ++ n :: rest = (out ++ [n]) ++ rest := by simp
          rw [← this]
          exact hnodup
        rw [← List.append_assoc]
        rw [List.nodup_append]
        refine ⟨hbase, List.Nodup.filter _ hsnodup, ?_⟩
        intro a ha ha'
        obtain ⟨_, haout, han, harest⟩ := hready_props a ha'
        rcases List.mem_append.mp ha with h | h
        · rcases List.mem_append.mp h with h' | h'
          · exact haout h'
          · rw [List.mem_singleton] at h'
            exact han h'
        · exact harest h
    have hp : p = ((n2iOrder g).map (fun x => (x,
        if x ∈ succs g n then (if x = n then (-1 : Int) else cf x) - 1
        else (if x = n then (-1 : Int) else cf x))),
        (succs g n).filter (fun s => (if s = n then (-1 : Int) else cf s) = 1)) := by
      show processSuccs (markOut ((n2iOrder g).map (fun x => (x, cf x))) n) (succs g n) = _
      rw [hMO]
      exact hPS
    rw [hp] at ih
    dsimp only at ih
    have hresult := ih (out ++ [n]) hinv'
    have hshift : ∀ L : List Node, (out ++ [n]) ++ L = out ++ n :: L := by
      intro L
      simp
    rw [hshift] at hresult
    exact hresult

/-- `static_order` on an acyclic well-formed graph is a permutation of all
interned nodes and topologically ordered. -/
theorem staticOrder_spec {g : Graph} (hWF : WFGraph g) (hA : Acyclic g) :
    (staticOrder g).Perm (n2iOrder g) ∧ TopoOrdered g (staticOrder g) := by
  obtain ⟨rank, hrank⟩ := hA
  have hinv : KahnInv g (initCounts g) (initReady g) [] := by
    refine ⟨fun x => ((preds g x).length : Int), rfl, ?_, ?_, ?_, ?_, topoOrdered_nil g⟩
    · intro x _ _
      have : (preds g x).filter (fun p => ¬ p ∈ ([] : List Node)) = preds g x :=
        List.filter_eq_self.mpr (by intro a _; simp)
      rw [this]
    · intro x _ hx
      simp at hx
    · intro x
      constructor
      · rintro (hx | hx)
        · simp at hx
        · unfold initReady at hx
          rw [List.mem_filter] at hx
          obtain ⟨hx1, hx2⟩ := hx
          rw [decide_eq_true_eq, List.length_eq_zero] at hx2
          exact ⟨hx1, by rw [hx2]; intro p hp; simp at hp⟩
      · rintro ⟨hxN, hp⟩
        right
        unfold initReady
        rw [List.mem_filter]
        refine ⟨hxN, ?_⟩
        have : preds g x = [] := by
          cases hpr : preds g x with
          | nil => rfl
          | cons a as =>
            have := hp a (by rw [hpr]; simp)
            simp at this
        simp [this]
    · rw [List.nil_append]
      exact List.Nodup.filter _ (n2iOrder_nodup g)
  have := kahnLoop_complete g hWF rank hrank (initCounts g) (initReady g) [] hinv
  simpa [staticOrder] using this

/-- Whatever enters the ready queue is eventually emitted. -/
theorem queue_subset_kahnLoop (g : Graph) :
    ∀ counts queue, ∀ x ∈ queue, x ∈ kahnLoop g counts queue := by
  intro counts queue
  induction counts, queue using kahnLoop.induct g with
  | case1 counts =>
    intro x hx
    simp at hx
  | case2 counts n rest p ih =>
    intro x hx
    rw [kahnLoop_cons]
    rcases List.mem_cons.mp hx with rfl | hx'
    · exact List.mem_cons_self _ _
    · exact List.mem_cons_of_mem _ (ih x (List.mem_append_left _ hx'))

theorem lookupG_eraseKey_ne {g : Graph} {n r : Node} (hne : ¬ n = r) :
    lookupG (eraseKey g r) n = lookupG g n := by
  unfold eraseKey lookupG
  induction g with
  | nil => simp
  | cons e es ih =>
    by_cases her : e.1 = r
    · rw [List.eraseP_cons_of_pos (by simpa using her)]
      have hne' : ¬ e.1 = n := by
        rw [her]
        intro h
        exact hne h.symm
      rw [List.find?_cons_of_neg _ (by simpa using hne')]
    · rw [List.eraseP_cons_of_neg (by simpa using her)]
      by_cases hen : e.1 = n
      · rw [List.find?_cons_of_pos _ (by simpa using hen),
          List.find?_cons_of_pos _ (by simpa using hen)]
      · rw [List.find?_cons_of_neg _ (by simpa using hen),
          List.find?_cons_of_neg _ (by simpa using hen)]
        exact ih

theorem wf_eraseKey {g : Graph} (hWF : WFGraph g) (r : Node) : WFGraph (eraseKey g r) := by
  constructor
  · have hsub : List.Sublist (keys (eraseKey g r)) (keys g) :=
      (List.eraseP_sublist g).map Prod.fst
    exact hWF.1.sublist hsub
  · intro e he
    exact hWF.2 e ((List.eraseP_sublist g).subset he)

/-- A key with an empty dependency set is never removed by cycle-breaking and
always appears in the produced order. -/
theorem mem_ignore_cycles_of_empty_deps (g : Graph) :
    ∀ n, WFGraph g → lookupG g n = some [] → n ∈ ignore_cycles g := by
  induction g using ignore_cycles.induct with
  | case1 g hfc =>
    intro n _ hn
    rw [ignore_cycles_eq_none hfc]
    unfold staticOrder
    apply queue_subset_kahnLoop
    unfold initReady
    rw [List.mem_filter]
    have hmem : (n, ([] : List Node)) ∈ g := mem_of_lookupG hn
    refine ⟨keys_subset_n2iOrder (List.mem_map_of_mem Prod.fst hmem), ?_⟩
    have : preds g n = [] := by
      unfold preds
      rw [hn]
      rfl
    simp [this]
  | case2 g c hfc ih =>
    intro n hWF hn
    obtain ⟨e, he, hk, hne⟩ := findCycle_head hfc
    have hnhead : ¬ n = c.headD "" := by
      intro hcontra
      have he1 : e.1 = n := by rw [hk, hcontra]
      have he' : (n, e.2) ∈ g := by
        have heq : e = (n, e.2) := by
          cases e
          simp_all
        rwa [heq] at he
      have hl : lookupG g n = some e.2 := lookupG_of_mem hWF.1 he'
      rw [hn] at hl
      injection hl with hl
      exact hne hl.symm
    rw [ignore_cycles_eq_some hfc]
    exact ih n (wf_eraseKey hWF _) ((lookupG_eraseKey_ne hnhead).symm ▸ hn)

/-! ## `ModuleSet`: module identity and static reference extraction -/

/-- Python `str.split(sep)` for a one-character separator: split on every
occurrence, keeping empty pieces (so the result is never empty and
`"".split('.') == ['']`). -/
def splitOnChar (sep : Char) : List Char → List (List Char)
  | [] => [[]]
  | c :: cs =>
    if c = sep then [] :: splitOnChar sep cs
    else
      match splitOnChar sep cs with
      | [] => [[c]]
      | h :: t => (c :: h) :: t

/-- Python `sep.join(parts)` for a one-character separator. -/
def joinChar (sep : Char) : List (List Char) → List Char
  | [] => []
  | [p] => p
  | p :: ps => p ++ sep :: joinChar sep ps

/-- `relative_path.replace(os.sep, '.')`, character-wise (`os.sep = '/'`). -/
def sepToDot (l : List Char) : List Char :=
  l.map (fun c => if c = '/' then '.' else c)

/-- `os.path.splitext(p)[0]` for a string containing no path separator (all
separators were already replaced by dots): strip from the last dot on, unless
every character before that dot is itself a dot (the leading-dots rule of
`splitext`). -/
def splitextFst (l : List Char) : List Char :=
  let stemRev := (l.reverse.dropWhile (fun c => ¬ c = '.')).tail
  if stemRev.any (fun c => ¬ c = '.') then stemRev.reverse else l

/-- One step of `posixpath.normpath`'s component scan, with the component
stack kept head-first: empty and `'.'` components are dropped, a `'..'`
component pops the preceding component unless none is available or the stack
already ends in `'..'` (a relative path may keep ascending), and any other
component is pushed. -/
def normStep (acc : List (List Char)) (comp : List Char) : List (List Char) :=
  if comp = [] ∨ comp = ['.'] then acc
  else if comp = ['.', '.'] then
    match acc with
    | [] => [comp]
    | top :: rest => if top = ['.', '.'] then comp :: acc else rest
  else comp :: acc

/-- The normalized component list of a path. -/
def normSegs (segs : List (List Char)) : List (List Char) :=
  (segs.foldl normStep []).reverse

/-- Model of `os.path.relpath(path, start=os.getcwd())` (line 37) for a path
interpreted relative to the working directory: `abspath` joins the path onto
the working directory and `normpath`-normalizes the result, and the common
leading components shared with the working directory are stripped again, so
what remains is the path's own components normalized — empty and `'.'`
components dropped, `'..'` resolved against the preceding component —
rejoined with `'/'` (or `'.'`, Python's `os.curdir`, when no component
remains). -/
def relpathChars (p : List Char) : List Char :=
  match normSegs (splitOnChar '/' p) with
  | [] => ['.']
  | segs => joinChar '/' segs

/-- `ModuleSet._get_fqn_from_path`: `os.path.relpath` normalization against
the working directory, then separator-to-dot replacement, then extension
stripping. -/
def fqnChars (p : List Char) : List Char := splitextFst (sepToDot (relpathChars p))

def fqnOfPath (p : String) : String := ⟨fqnChars p.data⟩

/-- `name.split('.')` on strings. -/
def splitDots (s : String) : List String :=
  (splitOnChar '.' s.data).map (fun l => ⟨l⟩)

/-- `'.'.join(parts)` on strings. -/
def joinDots (parts : List String) : String :=
  ⟨joinChar '.' (parts.map String.data)⟩

/-- Python `path.endswith(ext)`. -/
def pathEndsWith (p : String) (ext : String) : Bool :=
  ext.data.isSuffixOf p.data

/-- Python string comparison: lexicographic by code point. -/
def charListLe : List Char → List Char → Bool
  | [], _ => true
  | _ :: _, [] => false
  | a :: as, b :: bs =>
    if a.toNat = b.toNat then charListLe as bs else decide (a.toNat < b.toNat)

/-- `a <= b` on strings, as `sorted()` compares them. -/
def strLe (a b : String) : Bool := charListLe a.data b.data

/-- Import statements of a parsed module body: `ast.Import` contributes one
`imp` per alias (the alias name, a dotted string); `ast.ImportFrom` carries
its relative level, optional module and the imported member names. -/
inductive Stmt where
  | imp (name : String)
  | fromImport (level : Nat) (module : Option String) (members : List String)
deriving DecidableEq

/-- The names one statement adds to the import set in `ModuleSet.get_imports`
(lines 51-96): plain imports keep only the top-level segment; absolute
from-imports record the full dotted module (never a member); relative
from-imports ascend `level` segments of the current qualified name, dropping
the declaration when the level exceeds the available segments. -/
def stmtImports (fqn : String) (s : Stmt) : List String :=
  match s with
  | .imp name => [(splitDots name).headD ""]
  | .fromImport level mod _members =>
    match mod with
    | some m =>
      if level = 0 then [m]
      else
        let parts := splitDots fqn
        if level > parts.length then []
        else [joinDots (parts.take (parts.length - level) ++ splitDots m)]
    | none =>
      if level > 0 then
        let parts := splitDots fqn
        if level > parts.length then []
        else [joinDots (parts.take (parts.length - level))]
      else []

/-- `ModuleSet.get_imports`: a `SyntaxError` (`src = none`) yields the empty
set; otherwise every statement's names are added to the set. -/
def get_imports (src : Option (List Stmt × List String)) (fqn : String) : List String :=
  match src with
  | none => []
  | some (stmts, _) => stmts.foldl (fun acc s => (stmtImports fqn s).foldl insertNew acc) []

/-- `ModuleSet.get_function_and_class_references`: a `SyntaxError` yields the
empty set; otherwise the bare identifiers collected from the tree walk
(call targets and attribute-access objects), as a set. -/
def get_function_and_class_references (src : Option (List Stmt × List String)) :
    List String :=
  match src with
  | none => []
  | some (_, refs) => refs.foldl insertNew []

/-- One input path with what the filesystem and the parser yield for it:
whether `os.path.isfile` holds, and the parse result (`none` encodes a
`SyntaxError`), carrying the import statements and the bare references of the
tree walk. -/
structure PyFile where
  path : String
  isFile : Bool
  src : Option (List Stmt × List String)

/-- `Module(path, fqn)`. -/
structure PyModule where
  path : String
  fqn : String
deriving DecidableEq

/-- Python dict assignment `d[k] = v`: overwrite the existing entry in place,
or append a new one. -/
def dictInsert (l : List (String × PyModule)) (k : String) (v : PyModule) :
    List (String × PyModule) :=
  if l.any (fun e => e.1 = k) then l.map (fun e => if e.1 = k then (k, v) else e)
  else l ++ [(k, v)]

def dictKeys (l : List (String × PyModule)) : List String := l.map Prod.fst

def dictLookup (l : List (String × PyModule)) (k : String) : Option PyModule :=
  (l.find? (fun e => e.1 = k)).map (fun e => e.2)

/-- A file is admitted to the `ModuleSet` when it exists and ends in `.py`. -/
def isAdmitted (f : PyFile) : Prop := f.isFile ∧ pathEndsWith f.path ".py"

instance : DecidablePred isAdmitted := fun f => by
  unfold isAdmitted
  infer_instance

/-- `ModuleSet._load_modules`: admitted files are indexed by path and by
derived qualified name (`by_path`, `by_name`); a later load overwrites the
`by_name` entry of an earlier one with the same qualified name. -/
def loadModules (files : List PyFile) :
    List (String × PyModule) × List (String × PyModule) :=
  files.foldl (fun bp_bn f =>
    if f.isFile ∧ pathEndsWith f.path ".py" then
      (dictInsert bp_bn.1 f.path ⟨f.path, fqnOfPath f.path⟩,
        dictInsert bp_bn.2 (fqnOfPath f.path) ⟨f.path, fqnOfPath f.path⟩)
    else bp_bn) ([], [])

/-- Reading and parsing the file at `p` (the filesystem behind
`open(module.path)`): the parse result of the input entry with that path. -/
def srcOf (files : List PyFile) (p : String) : Option (List Stmt × List String) :=
  (files.find? (fun f => f.path = p)).bind (fun f => f.src)

/-- The loop body of `topological_sort_based_on_dependencies` for one path
(lines 150-162): union the module's declared imports with its bare
references, and keep those candidates that resolve through the `by_name`
index, as that target's path. -/
def moduleDeps (files : List PyFile) (p : String) : List Node :=
  let m := (dictLookup (loadModules files).1 p).getD ⟨p, fqnOfPath p⟩
  let imports := get_imports (srcOf files m.path) m.fqn
  let references := get_function_and_class_references (srcOf files m.path)
  let all_dependencies := references.foldl insertNew imports
  all_dependencies.foldl (fun acc d =>
    match dictLookup (loadModules files).2 d with
    | some dm => insertNew acc dm.path
    | none => acc) []

/-- The graph-construction loop of `topological_sort_based_on_dependencies`
(lines 148-165): iterate the `by_path` keys in sorted order and compute each
module's resolved dependency set. -/
def build_import_dependencies (files : List PyFile) : Graph :=
  (List.insertionSort (fun a b : String => strLe a b = true)
    (dictKeys (loadModules files).1)).map (fun p => (p, moduleDeps files p))

/-- `topological_sort_based_on_dependencies`: build the graph, sort a copy of
it with `ignore_cycles` (the code passes `import_dependencies.copy()`), and
return the order together with the *unmodified* mapping. -/
def topological_sort_based_on_dependencies (files : List PyFile) :
    List Node × Graph :=
  let import_dependencies := build_import_dependencies files
  (ignore_cycles import_dependencies, import_dependencies)

/-! ## Facts about the module indexes -/

theorem dictLookup_insert_self (l : List (String × PyModule)) (k : String) (v : PyModule) :
    dictLookup (dictInsert l k v) k = some v := by
  unfold dictInsert dictLookup
  by_cases h : l.any (fun e => e.1 = k)
  · rw [if_pos h]
    rw [List.any_eq_true] at h
    obtain ⟨e, he, hek⟩ := h
    rw [decide_eq_true_eq] at hek
    induction l with
    | nil => simp at he
    | cons a as ih =>
      rw [List.map_cons]
      by_cases hak : a.1 = k
      · rw [if_pos hak]
        rw [List.find?_cons_of_pos _ (by simp)]
        rfl
      · rw [if_neg hak]
        rw [List.find?_cons_of_neg _ (by simpa using hak)]
        rcases List.mem_cons.mp he with rfl | he'
        · exact absurd hek hak
        · exact ih he'
  · rw [if_neg h]
    rw [List.any_eq_true] at h
    push_neg at h
    induction l with
    | nil => simp
    | cons a as ih =>
      have hak : ¬ a.1 = k := by
        have := h a (List.mem_cons_self _ _)
        simpa using this
      rw [List.cons_append, List.find?_cons_of_neg _ (by simpa using hak)]
      exact ih (fun e he => h e (List.mem_cons_of_mem _ he))

theorem dictLookup_insert_ne (l : List (String × PyModule)) (k : String) (v : PyModule)
    (q : String) (hq : ¬ q = k) : dictLookup (dictInsert l k v) q = dictLookup l q := by
  unfold dictInsert dictLookup
  by_cases h : l.any (fun e => e.1 = k)
  · rw [if_pos h]
    clear h
    induction l with
    | nil => simp
    | cons a as ih =>
      rw [List.map_cons]
      by_cases hak : a.1 = k
      · rw [if_pos hak]
        have haq : ¬ a.1 = q := by
          rw [hak]
          intro hcontra
          exact hq hcontra.symm
        rw [List.find?_cons_of_neg _ (by simpa using fun hcontra => hq hcontra.symm),
          List.find?_cons_of_neg _ (by simpa using haq)]
        exact ih
      · rw [if_neg hak]
        by_cases haq : a.1 = q
        · rw [List.find?_cons_of_pos _ (by simpa using haq),
            List.find?_cons_of_pos _ (by simpa using haq)]
        · rw [List.find?_cons_of_neg _ (by simpa using haq),
            List.find?_cons_of_neg _ (by simpa using haq)]
          exact ih
  · rw [if_neg h]
    rw [List.any_eq_true] at h
    push_neg at h
    have hkq : ¬ k = q := fun hcontra => hq hcontra.symm
    induction l with
    | nil =>
      simp only [List.nil_append]
      rw [List.find?_cons_of_neg _ (by simpa using hkq), List.find?_nil]
    | cons a as ih =>
      by_cases haq : a.1 = q
      · rw [List.cons_append, List.find?_cons_of_pos _ (by simpa using haq),
          List.find?_cons_of_pos _ (by simpa using haq)]
      · rw [List.cons_append, List.find?_cons_of_neg _ (by simpa using haq),
          List.find?_cons_of_neg _ (by simpa using haq)]
        exact ih (fun e he => h e (List.mem_cons_of_mem _ he))

theorem mem_dictKeys_insert {l : List (String × PyModule)} {k : String} {v : PyModule}
    {x : String} : x ∈ dictKeys (dictInsert l k v) ↔ x ∈ dictKeys l ∨ x = k := by
  unfold dictInsert dictKeys
  by_cases h : l.any (fun e => e.1 = k)
  · rw [if_pos h]
    rw [List.any_eq_true] at h
    obtain ⟨e, he, hek⟩ := h
    rw [decide_eq_true_eq] at hek
    constructor
    · intro hx
      rw [List.mem_map] at hx
      obtain ⟨e', he', hx⟩ := hx
      rw [List.mem_map] at he'
      obtain ⟨e₀, he₀, he₀'⟩ := he'
      by_cases h₀ : e₀.1 = k
      · rw [if_pos h₀] at he₀'
        right
        rw [← hx, ← he₀']
      · rw [if_neg h₀] at he₀'
        left
        rw [List.mem_map]
        exact ⟨e₀, he₀, by rw [← hx, ← he₀']⟩
    · intro hx
      rw [List.mem_map]
      rcases hx with hx | hxk
      · rw [List.mem_map] at hx
        obtain ⟨e₀, he₀, hx⟩ := hx
        by_cases h₀ : e₀.1 = k
        · refine ⟨(k, v), ?_, by rw [← hx, ← h₀]⟩
          rw [List.mem_map]
          exact ⟨e₀, he₀, by rw [if_pos h₀]⟩
        · refine ⟨e₀, ?_, hx⟩
          rw [List.mem_map]
          exact ⟨e₀, he₀, by rw [if_neg h₀]⟩
      · refine ⟨(k, v), ?_, hxk.symm⟩
        rw [List.mem_map]
        exact ⟨e, he, by rw [if_pos hek]⟩
  · rw [if_neg h]
    rw [List.map_append]
    simp

theorem nodup_dictKeys_insert {l : List (String × PyModule)} {k : String} {v : PyModule}
    (h : (dictKeys l).Nodup) : (dictKeys (dictInsert l k v)).Nodup := by
  unfold dictInsert dictKeys at *
  by_cases ha : l.any (fun e => e.1 = k)
  · rw [if_pos ha]
    have : (l.map (fun e => if e.1 = k then (k, v) else e)).map Prod.fst = l.map Prod.fst := by
      rw [List.map_map]
      apply List.map_congr_left
      intro e _
      by_cases hek : e.1 = k
      · simp [hek]
      · simp [hek]
    rw [this]
    exact h
  · rw [if_neg ha, List.map_append, List.nodup_append]
    refine ⟨h, by simp, ?_⟩
    intro x hx hxk
    simp only [List.map_cons, List.map_nil, List.mem_singleton] at hxk
    subst hxk
    rw [List.any_eq_true] at ha
    push_neg at ha
    rw [List.mem_map] at hx
    obtain ⟨e, he, hek⟩ := hx
    have := ha e he
    rw [hek] at this
    simp at this

theorem values_dictInsert {l : List (String × PyModule)} {k : String} {v : PyModule}
    {P : String × PyModule → Prop} (hl : ∀ e ∈ l, P e) (hkv : P (k, v)) :
    ∀ e ∈ dictInsert l k v, P e := by
  intro e he
  unfold dictInsert at he
  by_cases ha : l.any (fun x => x.1 = k)
  · rw [if_pos ha, List.mem_map] at he
    obtain ⟨e₀, he₀, heq⟩ := he
    by_cases h₀ : e₀.1 = k
    · rw [if_pos h₀] at heq
      rw [← heq]
      exact hkv
    · rw [if_neg h₀] at heq
      rw [← heq]
      exact hl e₀ he₀
  · rw [if_neg ha, List.mem_append] at he
    rcases he with he | he
    · exact hl e he
    · rw [List.mem_singleton] at he
      rw [he]
      exact hkv

theorem loadModules_snoc (fs : List PyFile) (f : PyFile) :
    loadModules (fs ++ [f]) =
      if f.isFile ∧ pathEndsWith f.path ".py" then
        (dictInsert (loadModules fs).1 f.path ⟨f.path, fqnOfPath f.path⟩,
          dictInsert (loadModules fs).2 (fqnOfPath f.path) ⟨f.path, fqnOfPath f.path⟩)
      else loadModules fs := by
  unfold loadModules
  rw [List.foldl_append]
  rfl

theorem mem_by_path {files : List PyFile} {p : String} :
    p ∈ dictKeys (loadModules files).1 ↔ ∃ f ∈ files, isAdmitted f ∧ f.path = p := by
  induction files using List.reverseRecOn with
  | nil => simp [loadModules, dictKeys]
  | append_singleton fs f ih =>
    rw [loadModules_snoc]
    by_cases ha : f.isFile ∧ pathEndsWith f.path ".py"
    · rw [if_pos ha]
      dsimp only
      rw [mem_dictKeys_insert, ih]
      constructor
      · rintro (⟨f', hf', haf', hp⟩ | rfl)
        · exact ⟨f', List.mem_append_left _ hf', haf', hp⟩
        · exact ⟨f, List.mem_append_right _ (by simp), ha, rfl⟩
      · rintro ⟨f', hf', haf', hp⟩
        rcases List.mem_append.mp hf' with h | h
        · exact Or.inl ⟨f', h, haf', hp⟩
        · rw [List.mem_singleton] at h
          subst h
          exact Or.inr hp.symm
    · rw [if_neg ha, ih]
      constructor
      · rintro ⟨f', hf', haf', hp⟩
        exact ⟨f', List.mem_append_left _ hf', haf', hp⟩
      · rintro ⟨f', hf', haf', hp⟩
        rcases List.mem_append.mp hf' with h | h
        · exact ⟨f', h, haf', hp⟩
        · rw [List.mem_singleton] at h
          subst h
          exact absurd haf' ha

theorem by_path_nodup (files : List PyFile) : (dictKeys (loadModules files).1).Nodup := by
  induction files using List.reverseRecOn with
  | nil => simp [loadModules, dictKeys]
  | append_singleton fs f ih =>
    rw [loadModules_snoc]
    by_cases ha : f.isFile ∧ pathEndsWith f.path ".py"
    · rw [if_pos ha]
      exact nodup_dictKeys_insert ih
    · rw [if_neg ha]
      exact ih

theorem by_path_values (files : List PyFile) :
    ∀ e ∈ (loadModules files).1, e.2 = ⟨e.1, fqnOfPath e.1⟩ := by
  induction files using List.reverseRecOn with
  | nil => intro e he; simp [loadModules] at he
  | append_singleton fs f ih =>
    rw [loadModules_snoc]
    by_cases ha : f.isFile ∧ pathEndsWith f.path ".py"
    · rw [if_pos ha]
      exact values_dictInsert ih rfl
    · rw [if_neg ha]
      exact ih

/-- `by_name` keeps the module of the *last* admitted path deriving the
qualified name: last-writer-wins. -/
theorem by_name_lookup (files : List PyFile) (q : String) :
    dictLookup (loadModules files).2 q =
      ((files.filter (fun f => isAdmitted f ∧ fqnOfPath f.path = q)).getLast?).map
        (fun f => (⟨f.path, fqnOfPath f.path⟩ : PyModule)) := by
  induction files using List.reverseRecOn with
  | nil => simp [loadModules, dictLookup]
  | append_singleton fs f ih =>
    rw [loadModules_snoc, List.filter_append]
    by_cases ha : f.isFile ∧ pathEndsWith f.path ".py"
    · rw [if_pos ha]
      dsimp only
      by_cases hq : fqnOfPath f.path = q
      · have hfil : [f].filter (fun f => isAdmitted f ∧ fqnOfPath f.path = q) = [f] := by
          rw [List.filter_cons]
          rw [if_pos (by simpa [isAdmitted] using ⟨ha, hq⟩)]
          rfl
        rw [hfil, List.getLast?_concat]
        rw [← hq]
        rw [dictLookup_insert_self]
        rfl
      · have hfil : [f].filter (fun f => isAdmitted f ∧ fqnOfPath f.path = q) = [] := by
          rw [List.filter_cons]
          rw [if_neg (by simp [isAdmitted, hq])]
          rfl
        rw [hfil, List.append_nil]
        rw [dictLookup_insert_ne _ _ _ _ (fun h => hq h.symm)]
        exact ih
    · rw [if_neg ha]
      have hfil : [f].filter (fun f => isAdmitted f ∧ fqnOfPath f.path = q) = [] := by
        rw [List.filter_cons]
        rw [if_neg (by simp [isAdmitted, ha])]
        rfl
      rw [hfil, List.append_nil]
      exact ih

theorem keys_build (files : List PyFile) :
    keys (build_import_dependencies files) =
      List.insertionSort (fun a b : String => strLe a b = true)
        (dictKeys (loadModules files).1) := by
  unfold build_import_dependencies keys
  rw [List.map_map]
  have : (Prod.fst ∘ fun p => (p, moduleDeps files p)) = fun p : String => p := rfl
  rw [this, List.map_id']

theorem lookupG_graphMap {l : List Node} {F : Node → List Node} {q : Node} (hq : q ∈ l) :
    lookupG (l.map (fun p => (p, F p))) q = some (F q) := by
  induction l with
  | nil => simp at hq
  | cons a as ih =>
    rw [List.map_cons]
    by_cases ha : a = q
    · subst ha
      unfold lookupG
      rw [List.find?_cons_of_pos _ (by simp)]
      rfl
    · rcases List.mem_cons.mp hq with hq' | hq'
      · exact absurd hq'.symm ha
      · unfold lookupG at *
        rw [List.find?_cons_of_neg _ (by simpa using ha)]
        exact ih hq'

theorem find?_path_self {files : List PyFile} {f : PyFile}
    (hnd : (files.map PyFile.path).Nodup) (hf : f ∈ files) :
    files.find? (fun x => x.path = f.path) = some f := by
  induction files with
  | nil => simp at hf
  | cons a as ih =>
    rw [List.map_cons, List.nodup_cons] at hnd
    rcases List.mem_cons.mp hf with rfl | hf'
    · rw [List.find?_cons_of_pos _ (by simp)]
    · have hne : ¬ a.path = f.path := by
        intro hcontra
        exact hnd.1 (hcontra ▸ List.mem_map_of_mem PyFile.path hf')
      rw [List.find?_cons_of_neg _ (by simpa using hne)]
      exact ih hnd.2 hf'

/-- The computed module record for a `by_path` key is the expected one. -/
theorem moduleRecord_of_key (files : List PyFile) (p : String) :
    (dictLookup (loadModules files).1 p).getD ⟨p, fqnOfPath p⟩ = ⟨p, fqnOfPath p⟩ := by
  cases hd : dictLookup (loadModules files).1 p with
  | none => rfl
  | some v =>
    unfold dictLookup at hd
    cases hf : (loadModules files).1.find? (fun e => e.1 = p) with
    | none => rw [hf] at hd; cases hd
    | some e =>
      rw [hf] at hd
      simp only [Option.map_some'] at hd
      injection hd with hd
      have hep : e.1 = p := by
        have := List.find?_some hf
        simpa using this
      have hval := by_path_values files e (List.mem_of_find?_eq_some hf)
      rw [Option.getD_some, ← hd, hval, hep]

/-- A module whose source fails to parse contributes an empty dependency
set. -/
theorem moduleDeps_of_src_none {files : List PyFile} {p : String}
    (h : srcOf files p = none) : moduleDeps files p = [] := by
  unfold moduleDeps
  rw [moduleRecord_of_key]
  dsimp only
  rw [h]
  rfl

/-- Every admitted file's path is a key of the built dependency graph. -/
theorem mem_keys_build_of_admitted {files : List PyFile} {f : PyFile}
    (hf : f ∈ files) (ha : isAdmitted f) :
    f.path ∈ keys (build_import_dependencies files) := by
  rw [keys_build]
  rw [(List.perm_insertionSort (fun a b : String => strLe a b = true)
    (dictKeys (loadModules files).1)).mem_iff]
  exact mem_by_path.mpr ⟨f, hf, ha, rfl⟩

/-- Looking up a `by_path` key in the built graph yields its computed
dependency set. -/
theorem lookupG_build {files : List PyFile} {p : String}
    (hp : p ∈ dictKeys (loadModules files).1) :
    lookupG (build_import_dependencies files) p = some (moduleDeps files p) := by
  unfold build_import_dependencies
  apply lookupG_graphMap
  rw [(List.perm_insertionSort (fun a b : String => strLe a b = true)
    (dictKeys (loadModules files).1)).mem_iff]
  exact hp

/-! ## Facts about the qualified-name derivation -/

/-- The inverse separator replacement, on dot-free stems. -/
def dotToSep (l : List Char) : List Char :=
  l.map (fun c => if c = '.' then '/' else c)

theorem dotToSep_sepToDot {s : List Char} (h : ¬ '.' ∈ s) : dotToSep (sepToDot s) = s := by
  induction s with
  | nil => rfl
  | cons c cs ih =>
    have hc : ¬ c = '.' := fun hcc => h (hcc ▸ List.mem_cons_self _ _)
    have hcs : ¬ '.' ∈ cs := fun hm => h (List.mem_cons_of_mem _ hm)
    unfold dotToSep sepToDot at *
    rw [List.map_cons, List.map_cons]
    rw [ih hcs]
    congr 1
    by_cases hcslash : c = '/'
    · simp [hcslash]
    · simp [hcslash, hc]

/-- On a dot-free stem with at least one non-separator character, the derived
qualified name is exactly the stem with separators replaced by dots. -/
theorem charListLe_trans : ∀ {l₁ l₂ l₃ : List Char},
    charListLe l₁ l₂ = true → charListLe l₂ l₃ = true → charListLe l₁ l₃ = true := by
  intro l₁
  induction l₁ with
  | nil => intro l₂ l₃ _ _; rfl
  | cons a as ih =>
    intro l₂ l₃ h12 h23
    cases l₂ with
    | nil => simp [charListLe] at h12
    | cons b bs =>
      cases l₃ with
      | nil => simp [charListLe] at h23
      | cons c cs =>
        simp only [charListLe] at h12 h23 ⊢
        by_cases hab : a.toNat = b.toNat
        · rw [if_pos hab] at h12
          by_cases hbc : b.toNat = c.toNat
          · rw [if_pos hbc] at h23
            rw [if_pos (hab.trans hbc)]
            exact ih h12 h23
          · rw [if_neg hbc, decide_eq_true_eq] at h23
            rw [if_neg (by omega), decide_eq_true_eq]
            omega
        · rw [if_neg hab, decide_eq_true_eq] at h12
          by_cases hbc : b.toNat = c.toNat
          · rw [if_neg (by omega), decide_eq_true_eq]
            omega
          · rw [if_neg hbc, decide_eq_true_eq] at h23
            rw [if_neg (by omega), decide_eq_true_eq]
            omega

theorem charListLe_total : ∀ (l₁ l₂ : List Char),
    charListLe l₁ l₂ = true ∨ charListLe l₂ l₁ = true := by
  intro l₁
  induction l₁ with
  | nil => intro l₂; left; rfl
  | cons a as ih =>
    intro l₂
    cases l₂ with
    | nil => right; rfl
    | cons b bs =>
      simp only [charListLe]
      by_cases hab : a.toNat = b.toNat
      · rw [if_pos hab, if_pos hab.symm]
        exact ih bs
      · rw [if_neg hab, if_neg (fun h => hab h.symm), decide_eq_true_eq, decide_eq_true_eq]
        omega

instance : IsTrans String (fun a b => strLe a b = true) :=
  ⟨fun _ _ _ => charListLe_trans⟩

instance : IsTotal String (fun a b => strLe a b = true) :=
  ⟨fun a b => charListLe_total a.data b.data⟩

/-- The removed-node trace never exceeds the number of graph keys. -/
theorem ignore_cyclesTrace_removed_le (g : Graph) :
    (ignore_cyclesTrace g).1.length ≤ g.length := by
  induction g using ignore_cyclesTrace.induct with
  | case1 g hfc =>
    rw [ignore_cyclesTrace_eq_none hfc]
    simp
  | case2 g c hfc ih =>
    rw [ignore_cyclesTrace_eq_some hfc]
    have hlt : (eraseKey g (c.headD "")).length < g.length := by
      apply length_eraseKey_lt
      obtain ⟨e, he, hk, _⟩ := findCycle_head hfc
      exact ⟨e, he, hk⟩
    simp only [List.length_cons]
    omega

theorem splitext_sepToDot_stem {s : List Char} (hdot : ¬ '.' ∈ s)
    (hns : ∃ c ∈ s, ¬ c = '/') :
    splitextFst (sepToDot (s ++ ".py".data)) = sepToDot s := by
  have hsep : sepToDot (s ++ ".py".data) = sepToDot s ++ ".py".data := by
    unfold sepToDot
    rw [List.map_append]
    rfl
  rw [hsep]
  unfold splitextFst
  have hrev : (sepToDot s ++ ".py".data).reverse = 'y' :: 'p' :: '.' :: (sepToDot s).reverse := by
    rw [List.reverse_append]
    rfl
  rw [hrev]
  have hdrop : List.dropWhile (fun c => ¬ c = '.')
      ('y' :: 'p' :: '.' :: (sepToDot s).reverse) = '.' :: (sepToDot s).reverse := by
    rw [List.dropWhile_cons_of_pos (by simp), List.dropWhile_cons_of_pos (by simp),
      List.dropWhile_cons_of_neg (by simp)]
  rw [hdrop]
  have hany : ((sepToDot s).reverse).any (fun c => ¬ c = '.') = true := by
    obtain ⟨c, hc, hcs⟩ := hns
    have hcd : ¬ c = '.' := fun hcc => hdot (hcc ▸ hc)
    rw [List.any_eq_true]
    refine ⟨c, ?_, by simpa using hcd⟩
    rw [List.mem_reverse]
    unfold sepToDot
    rw [List.mem_map]
    exact ⟨c, hc, by rw [if_neg hcs]⟩
  rw [List.tail_cons]
  rw [if_pos (by simpa using hany)]
  rw [List.reverse_reverse]

/-! ## The claims -/

/-- C1 counterexample: on the two-node mutual cycle `a ↔ b` the sorter
removes `"a"` as a key only; `"a"` survives inside `"b"`'s dependency set and
therefore still appears in the final order (first, as a dependency-free
leaf), so the final order is `["a", "b"]` — the remaining node does not sort
alone and the removed node is not absent. -/
theorem C1_counterexample :
    (ignore_cyclesTrace [("a", ["b"]), ("b", ["a"])]).1 = ["a"] ∧
      (ignore_cyclesTrace [("a", ["b"]), ("b", ["a"])]).2 = ["a", "b"] ∧
      "a" ∈ (ignore_cyclesTrace [("a", ["b"]), ("b", ["a"])]).2 := by
  have h1 : findCycle [("a", ["b"]), ("b", ["a"])] = some ["a", "b", "a"] := by
    simp [findCycle, findCycleAux, dfs, n2iOrder, insertNew, succs, advance]
  have h2 : eraseKey [("a", ["b"]), ("b", ["a"])] "a" = [("b", ["a"])] := by decide
  have h3 : findCycle [("b", ["a"])] = none := by
    simp [findCycle, findCycleAux, dfs, n2iOrder, insertNew, succs, advance]
  have h4 : staticOrder [("b", ["a"])] = ["a", "b"] := by
    simp [staticOrder, kahnLoop, initCounts, initReady, preds, lookupG, n2iOrder, insertNew,
      markOut, decOne, processSuccs, succStep, succs]
  rw [ignore_cyclesTrace_eq_some h1]
  simp only [List.headD_cons]
  rw [h2, ignore_cyclesTrace_eq_none h3, h4]
  exact ⟨rfl, rfl, by simp⟩

/-- C1 (amended): on a detected cycle the sorter removes the *first node of
the reported cycle* but only as a graph key — it stays inside other nodes'
dependency sets.  Consequently a removed node that is still referenced
reappears in the final order as a dependency-free leaf: the two-node mutual
cycle yields the order `["a", "b"]` with removal trace `["a"]`, and only an
unreferenced removed node (such as a self-loop singleton) is absent from the
final order. -/
theorem C1_cycle_break_removes_key_only {g : Graph} {c : List Node}
    (h : findCycle g = some c) :
    (c.headD "") ∈ keys g ∧
      ignore_cycles g = ignore_cycles (eraseKey g (c.headD "")) ∧
      (ignore_cyclesTrace g).1.headD "" = c.headD "" ∧
      ignore_cyclesTrace [("a", ["b"]), ("b", ["a"])] = (["a"], ["a", "b"]) ∧
      ignore_cyclesTrace [("a", ["a"])] = (["a"], []) := by
  obtain ⟨e, he, hk, _⟩ := findCycle_head h
  refine ⟨hk ▸ List.mem_map_of_mem Prod.fst he, ignore_cycles_eq_some h, ?_, ?_, ?_⟩
  · rw [ignore_cyclesTrace_eq_some h]
    simp
  · have h1 : findCycle [("a", ["b"]), ("b", ["a"])] = some ["a", "b", "a"] := by
      simp [findCycle, findCycleAux, dfs, n2iOrder, insertNew, succs, advance]
    have h2 : eraseKey [("a", ["b"]), ("b", ["a"])] "a" = [("b", ["a"])] := by decide
    have h3 : findCycle [("b", ["a"])] = none := by
      simp [findCycle, findCycleAux, dfs, n2iOrder, insertNew, succs, advance]
    have h4 : staticOrder [("b", ["a"])] = ["a", "b"] := by
      simp [staticOrder, kahnLoop, initCounts, initReady, preds, lookupG, n2iOrder, insertNew,
        markOut, decOne, processSuccs, succStep, succs]
    rw [ignore_cyclesTrace_eq_some h1]
    simp only [List.headD_cons]
    rw [h2, ignore_cyclesTrace_eq_none h3, h4]
  · have h1 : findCycle [("a", ["a"])] = some ["a", "a"] := by
      simp [findCycle, findCycleAux, dfs, n2iOrder, insertNew, succs, advance]
    have h2 : eraseKey [("a", ["a"])] "a" = [] := by decide
    have h3 : findCycle ([] : Graph) = none := rfl
    have h5 : staticOrder ([] : Graph) = [] := kahnLoop_nil _ _
    rw [ignore_cyclesTrace_eq_some h1]
    simp only [List.headD_cons]
    rw [h2, ignore_cyclesTrace_eq_none h3]
    simp [h5]

/-- Witness for C1 (amended) at the two-node mutual cycle. -/
theorem C1_cycle_break_witness :
    findCycle [("a", ["b"]), ("b", ["a"])] = some ["a", "b", "a"] ∧
      "a" ∈ keys [("a", ["b"]), ("b", ["a"])] ∧
      ignore_cycles [("a", ["b"]), ("b", ["a"])] =
        ignore_cycles (eraseKey [("a", ["b"]), ("b", ["a"])] "a") := by
  have h1 : findCycle [("a", ["b"]), ("b", ["a"])] = some ["a", "b", "a"] := by
    simp [findCycle, findCycleAux, dfs, n2iOrder, insertNew, succs, advance]
  have h := C1_cycle_break_removes_key_only h1
  exact ⟨h1, by simpa using h.1, by simpa using h.2.1⟩

/-- C2: on every well-formed acyclic graph the sorter removes no node, and
`static_order` lists every node of the graph (keys and pure dependencies
alike) exactly once, with every dependency placed before its dependent. -/
theorem C2_acyclic_sorts_without_removal {g : Graph} (hWF : WFGraph g) (hA : Acyclic g) :
    ignore_cyclesTrace g = ([], staticOrder g) ∧
      (staticOrder g).Perm (n2iOrder g) ∧
      (staticOrder g).Nodup ∧
      TopoOrdered g (staticOrder g) := by
  obtain ⟨hperm, htopo⟩ := staticOrder_spec hWF hA
  exact ⟨ignore_cyclesTrace_eq_none (findCycle_eq_none_of_acyclic hA), hperm,
    hperm.nodup_iff.mpr (n2iOrder_nodup g), htopo⟩

/-- Witness for C2 at the diamond graph. -/
theorem C2_acyclic_witness :
    WFGraph [("a", ["b", "c"]), ("b", ["d"]), ("c", ["d"]), ("d", [])] ∧
      Acyclic [("a", ["b", "c"]), ("b", ["d"]), ("c", ["d"]), ("d", [])] ∧
      (ignore_cyclesTrace [("a", ["b", "c"]), ("b", ["d"]), ("c", ["d"]), ("d", [])] =
          ([], staticOrder [("a", ["b", "c"]), ("b", ["d"]), ("c", ["d"]), ("d", [])]) ∧
        (staticOrder [("a", ["b", "c"]), ("b", ["d"]), ("c", ["d"]), ("d", [])]).Perm
          (n2iOrder [("a", ["b", "c"]), ("b", ["d"]), ("c", ["d"]), ("d", [])]) ∧
        (staticOrder [("a", ["b", "c"]), ("b", ["d"]), ("c", ["d"]), ("d", [])]).Nodup ∧
        TopoOrdered [("a", ["b", "c"]), ("b", ["d"]), ("c", ["d"]), ("d", [])]
          (staticOrder [("a", ["b", "c"]), ("b", ["d"]), ("c", ["d"]), ("d", [])])) := by
  have hA : Acyclic [("a", ["b", "c"]), ("b", ["d"]), ("c", ["d"]), ("d", [])] :=
    ⟨fun n => if n = "d" then 0 else if n = "a" then 2 else 1, by decide⟩
  exact ⟨by decide, hA, C2_acyclic_sorts_without_removal (by decide) hA⟩

/-- C3: every cycle-resolution step strictly decreases the number of graph
keys (the popped node is always a key), so at most `|nodes|` resolutions can
happen and the removal trace is bounded by the key count; the empty graph
yields the empty order.  Totality of `ignore_cycles` (it always returns an
order) is the well-founded recursion it is defined by. -/
theorem C3_termination {g : Graph} {c : List Node} (h : findCycle g = some c) :
    (ignore_cyclesTrace g).1.length ≤ g.length ∧
      (eraseKey g (c.headD "")).length < g.length ∧
      ignore_cycles ([] : Graph) = [] := by
  refine ⟨ignore_cyclesTrace_removed_le g, ?_, ?_⟩
  · apply length_eraseKey_lt
    obtain ⟨e, he, hk, _⟩ := findCycle_head h
    exact ⟨e, he, hk⟩
  · rw [ignore_cycles_eq_none (g := ([] : Graph)) rfl]
    exact kahnLoop_nil _ _

/-- Witness for C3 at the two-node mutual cycle. -/
theorem C3_termination_witness :
    findCycle [("a", ["b"]), ("b", ["a"])] = some ["a", "b", "a"] ∧
      (ignore_cyclesTrace [("a", ["b"]), ("b", ["a"])]).1.length ≤ 2 ∧
      (eraseKey [("a", ["b"]), ("b", ["a"])] "a").length < 2 := by
  have h1 : findCycle [("a", ["b"]), ("b", ["a"])] = some ["a", "b", "a"] := by
    simp [findCycle, findCycleAux, dfs, n2iOrder, insertNew, succs, advance]
  have h := C3_termination h1
  exact ⟨h1, h.1, by simpa using h.2.1⟩

/-- C4 counterexample: two dependency maps equal as set-valued mappings —
identical keys, each per-key dependency set equal up to iteration order —
whose dependency sets iterate in different orders sort to different final
orders: `graphlib` interns predecessors in set-iteration order, which fixes
the emission order of the otherwise-unconstrained nodes `b` and `c`.  Set
iteration order is hash-randomized across Python processes, so the final
order is not reproducible across runs on unchanged input; in the second run
`c` precedes `b`, so unconstrained nodes are not in lexical order either. -/
theorem C4_counterexample :
    keys [("a", ["b", "c"]), ("b", ([] : List Node)), ("c", [])] =
        keys [("a", ["c", "b"]), ("b", []), ("c", [])] ∧
      (∀ n ∈ keys [("a", ["b", "c"]), ("b", ([] : List Node)), ("c", [])],
        (preds [("a", ["b", "c"]), ("b", []), ("c", [])] n).Perm
          (preds [("a", ["c", "b"]), ("b", []), ("c", [])] n)) ∧
      ignore_cycles [("a", ["b", "c"]), ("b", []), ("c", [])] = ["b", "c", "a"] ∧
      ignore_cycles [("a", ["c", "b"]), ("b", []), ("c", [])] = ["c", "b", "a"] := by
  have h1 : findCycle [("a", ["b", "c"]), ("b", ([] : List Node)), ("c", [])] = none := by
    simp [findCycle, findCycleAux, dfs, n2iOrder, insertNew, succs, advance]
  have h2 : findCycle [("a", ["c", "b"]), ("b", ([] : List Node)), ("c", [])] = none := by
    simp [findCycle, findCycleAux, dfs, n2iOrder, insertNew, succs, advance]
  have e1 : staticOrder [("a", ["b", "c"]), ("b", ([] : List Node)), ("c", [])] =
      ["b", "c", "a"] := by
    simp [staticOrder, kahnLoop, initCounts, initReady, preds, lookupG, n2iOrder, insertNew,
      markOut, decOne, processSuccs, succStep, succs]
  have e2 : staticOrder [("a", ["c", "b"]), ("b", ([] : List Node)), ("c", [])] =
      ["c", "b", "a"] := by
    simp [staticOrder, kahnLoop, initCounts, initReady, preds, lookupG, n2iOrder, insertNew,
      markOut, decOne, processSuccs, succStep, succs]
  rw [ignore_cycles_eq_none h1, ignore_cycles_eq_none h2]
  exact ⟨rfl, by decide, e1, e2⟩

/-- C4 (amended): with every dependency set's iteration order held fixed (as
within a single process run) the pipeline is a pure function — running it
twice on the same input yields identical removal traces, orders and maps —
and the graph keys are iterated in sorted (lexicographic) order.  The final
order is not a function of the graph as a set-valued mapping, however: two
graphs with identical keys and identical per-key dependency sets, differing
only in the sets' iteration orders, can sort to different final orders, so
the order of nodes with no relative ordering constraint is not reproducible
across Python runs, set iteration order being hash-randomized across
processes. -/
theorem C4_order_depends_on_set_iteration (files : List PyFile) (g : Graph) :
    topological_sort_based_on_dependencies files =
        topological_sort_based_on_dependencies files ∧
      ignore_cyclesTrace g = ignore_cyclesTrace g ∧
      List.Sorted (fun a b : String => strLe a b = true)
        (keys (build_import_dependencies files)) ∧
      ∃ g1 g2 : Graph, keys g1 = keys g2 ∧
        (∀ n ∈ keys g1, (preds g1 n).Perm (preds g2 n)) ∧
        ¬ ignore_cycles g1 = ignore_cycles g2 := by
  refine ⟨rfl, rfl, ?_, ?_⟩
  · rw [keys_build]
    exact List.sorted_insertionSort _ _
  · refine ⟨[("a", ["b", "c"]), ("b", []), ("c", [])],
      [("a", ["c", "b"]), ("b", []), ("c", [])], rfl, by decide, ?_⟩
    have h1 : findCycle [("a", ["b", "c"]), ("b", ([] : List Node)), ("c", [])] = none := by
      simp [findCycle, findCycleAux, dfs, n2iOrder, insertNew, succs, advance]
    have h2 : findCycle [("a", ["c", "b"]), ("b", ([] : List Node)), ("c", [])] = none := by
      simp [findCycle, findCycleAux, dfs, n2iOrder, insertNew, succs, advance]
    rw [ignore_cycles_eq_none h1, ignore_cycles_eq_none h2]
    have e1 : staticOrder [("a", ["b", "c"]), ("b", ([] : List Node)), ("c", [])] =
        ["b", "c", "a"] := by
      simp [staticOrder, kahnLoop, initCounts, initReady, preds, lookupG, n2iOrder, insertNew,
        markOut, decOne, processSuccs, succStep, succs]
    have e2 : staticOrder [("a", ["c", "b"]), ("b", ([] : List Node)), ("c", [])] =
        ["c", "b", "a"] := by
      simp [staticOrder, kahnLoop, initCounts, initReady, preds, lookupG, n2iOrder, insertNew,
        markOut, decOne, processSuccs, succStep, succs]
    rw [e1, e2]
    decide

/-- C5: every admitted module's path is a key of the built (and returned)
dependency graph; a module whose source fails to parse gets the empty
dependency set, and the computation carries on over the whole batch. -/
theorem C5_every_module_keyed {files : List PyFile} {f : PyFile}
    (hnd : (files.map PyFile.path).Nodup) (hf : f ∈ files) (ha : isAdmitted f) :
    f.path ∈ keys (topological_sort_based_on_dependencies files).2 ∧
      (f.src = none →
        lookupG (topological_sort_based_on_dependencies files).2 f.path = some []) := by
  have h2 : (topological_sort_based_on_dependencies files).2 =
      build_import_dependencies files := rfl
  rw [h2]
  refine ⟨mem_keys_build_of_admitted hf ha, ?_⟩
  intro hsrc
  have hp : f.path ∈ dictKeys (loadModules files).1 := mem_by_path.mpr ⟨f, hf, ha, rfl⟩
  rw [lookupG_build hp]
  have hso : srcOf files f.path = none := by
    unfold srcOf
    rw [find?_path_self hnd hf]
    simp [hsrc]
  rw [moduleDeps_of_src_none hso]

/-- Witness for C5 with an unparseable module. -/
theorem C5_witness :
    (([⟨"bad.py", true, none⟩, ⟨"good.py", true, some ([], [])⟩] :
        List PyFile).map PyFile.path).Nodup ∧
      isAdmitted (⟨"bad.py", true, none⟩ : PyFile) ∧
      "bad.py" ∈ keys (topological_sort_based_on_dependencies
        [⟨"bad.py", true, none⟩, ⟨"good.py", true, some ([], [])⟩]).2 ∧
      lookupG (topological_sort_based_on_dependencies
        [⟨"bad.py", true, none⟩, ⟨"good.py", true, some ([], [])⟩]).2 "bad.py" = some [] := by
  have h := @C5_every_module_keyed
    [⟨"bad.py", true, none⟩, ⟨"good.py", true, some ([], [])⟩]
    ⟨"bad.py", true, none⟩ (by decide) (List.mem_cons_self _ _) (by decide)
  exact ⟨by decide, by decide, h.1, h.2 rfl⟩

/-- C6 counterexample: with two mutually importing modules the sorter removes
`"a.py"` while sorting, yet the adjacency map returned to the caller still
holds the full two-key graph — the removal never reaches it, because the
sorter received `import_dependencies.copy()`. -/
theorem C6_counterexample :
    (topological_sort_based_on_dependencies
        [⟨"a.py", true, some ([.fromImport 0 (some "b") ["f"]], [])⟩,
         ⟨"b.py", true, some ([.fromImport 0 (some "a") ["g"]], [])⟩]).2 =
      [("a.py", ["b.py"]), ("b.py", ["a.py"])] ∧
      (ignore_cyclesTrace [("a.py", ["b.py"]), ("b.py", ["a.py"])]).1 = ["a.py"] ∧
      "a.py" ∈ keys (topological_sort_based_on_dependencies
        [⟨"a.py", true, some ([.fromImport 0 (some "b") ["f"]], [])⟩,
         ⟨"b.py", true, some ([.fromImport 0 (some "a") ["g"]], [])⟩]).2 := by
  have hb : (topological_sort_based_on_dependencies
      [⟨"a.py", true, some ([.fromImport 0 (some "b") ["f"]], [])⟩,
       ⟨"b.py", true, some ([.fromImport 0 (some "a") ["g"]], [])⟩]).2 =
      [("a.py", ["b.py"]), ("b.py", ["a.py"])] := by
    show build_import_dependencies _ = _
    decide
  have h1 : findCycle [("a.py", ["b.py"]), ("b.py", ["a.py"])] =
      some ["a.py", "b.py", "a.py"] := by
    simp [findCycle, findCycleAux, dfs, n2iOrder, insertNew, succs, advance]
  have h2 : eraseKey [("a.py", ["b.py"]), ("b.py", ["a.py"])] "a.py" =
      [("b.py", ["a.py"])] := by decide
  have h3 : findCycle [("b.py", ["a.py"])] = none := by
    simp [findCycle, findCycleAux, dfs, n2iOrder, insertNew, succs, advance]
  refine ⟨hb, ?_, by rw [hb]; simp [keys]⟩
  rw [ignore_cyclesTrace_eq_some h1]
  simp only [List.headD_cons]
  rw [h2, ignore_cyclesTrace_eq_none h3]

/-- C6 (amended): the sorter operates on a shallow copy of the dependency
map; the adjacency map returned to the caller is the graph exactly as built,
never the cycle-reduced one — every admitted module's key persists in it even
when cycle-breaking removed that node from the sort. -/
theorem C6_returned_map_unreduced (files : List PyFile) :
    (topological_sort_based_on_dependencies files).1 =
        ignore_cycles ((topological_sort_based_on_dependencies files).2) ∧
      (topological_sort_based_on_dependencies files).2 =
        build_import_dependencies files ∧
      ∀ f ∈ files, isAdmitted f →
        f.path ∈ keys (topological_sort_based_on_dependencies files).2 := by
  exact ⟨rfl, rfl, fun f hf ha => mem_keys_build_of_admitted hf ha⟩

/-- Witness for C6 (amended) at the mutually importing pair. -/
theorem C6_returned_map_witness :
    (topological_sort_based_on_dependencies
        [⟨"a.py", true, some ([.fromImport 0 (some "b") ["f"]], [])⟩,
         ⟨"b.py", true, some ([.fromImport 0 (some "a") ["g"]], [])⟩]).1 =
      ignore_cycles ((topological_sort_based_on_dependencies
        [⟨"a.py", true, some ([.fromImport 0 (some "b") ["f"]], [])⟩,
         ⟨"b.py", true, some ([.fromImport 0 (some "a") ["g"]], [])⟩]).2) ∧
      "a.py" ∈ keys (topological_sort_based_on_dependencies
        [⟨"a.py", true, some ([.fromImport 0 (some "b") ["f"]], [])⟩,
         ⟨"b.py", true, some ([.fromImport 0 (some "a") ["g"]], [])⟩]).2 := by
  have h := C6_returned_map_unreduced
    [⟨"a.py", true, some ([.fromImport 0 (some "b") ["f"]], [])⟩,
     ⟨"b.py", true, some ([.fromImport 0 (some "a") ["g"]], [])⟩]
  exact ⟨h.1, h.2.2 _ (List.mem_cons_self _ _) (by decide)⟩

/-- C7 counterexample: the two distinct admitted paths `a/b.py` and `a.b.py`
derive the same qualified name `a.b`, so the path-to-name mapping is not
injective over admitted paths. -/
theorem C7_counterexample :
    fqnOfPath "a/b.py" = fqnOfPath "a.b.py" ∧
      ("a/b.py" : String) ≠ "a.b.py" ∧
      pathEndsWith "a/b.py" ".py" = true ∧ pathEndsWith "a.b.py" ".py" = true := by
  exact ⟨by decide, by decide, by decide, by decide⟩

/-- C7 (amended): the derivation is a pure function of the path, but distinct
admitted paths collide in two ways: spellings that `os.path.relpath`
normalizes to the same relative path (`a//b.py` vs `a/b.py`), and dotted
stems conflated with separator-derived dots (`a/b.py` vs `a.b.py`).
Injectivity holds only over admitted paths already in normalized form
(fixed points of the relpath normalization) whose stem contains no dot and
at least one non-separator character. -/
theorem C7_fqn_injective_on_normalized {s1 s2 : List Char}
    (hr1 : relpathChars (s1 ++ ".py".data) = s1 ++ ".py".data)
    (hr2 : relpathChars (s2 ++ ".py".data) = s2 ++ ".py".data)
    (h1 : ¬ '.' ∈ s1) (h2 : ¬ '.' ∈ s2)
    (hn1 : ∃ c ∈ s1, ¬ c = '/') (hn2 : ∃ c ∈ s2, ¬ c = '/')
    (heq : fqnChars (s1 ++ ".py".data) = fqnChars (s2 ++ ".py".data)) :
    s1 ++ ".py".data = s2 ++ ".py".data ∧
      fqnOfPath "a//b.py" = fqnOfPath "a/b.py" ∧ ("a//b.py" : String) ≠ "a/b.py" := by
  unfold fqnChars at heq
  rw [hr1, hr2] at heq
  rw [splitext_sepToDot_stem h1 hn1, splitext_sepToDot_stem h2 hn2] at heq
  have hs : s1 = s2 := by
    have hd := congrArg dotToSep heq
    rwa [dotToSep_sepToDot h1, dotToSep_sepToDot h2] at hd
  exact ⟨by rw [hs], by decide, by decide⟩

/-- Witness for C7 (amended) at the normalized stem `pkg/mod`. -/
theorem C7_fqn_injective_witness :
    relpathChars ("pkg/mod".data ++ ".py".data) = "pkg/mod".data ++ ".py".data ∧
      ¬ '.' ∈ "pkg/mod".data ∧ (∃ c ∈ "pkg/mod".data, ¬ c = '/') ∧
      "pkg/mod".data ++ ".py".data = "pkg/mod".data ++ ".py".data := by
  refine ⟨by decide, by decide, by decide, ?_⟩
  exact (C7_fqn_injective_on_normalized (by decide) (by decide) (by decide) (by decide)
    (by decide) (by decide) rfl).1

/-- C8 counterexample: the plain absolute declaration `import a.b` records
only the top-level segment `a`, not the full dotted name `a.b`. -/
theorem C8_counterexample :
    stmtImports "m" (.imp "a.b") = ["a"] ∧ ¬ "a.b" ∈ stmtImports "m" (.imp "a.b") := by
  exact ⟨by decide, by decide⟩

/-- C8 (amended): the absolute member-import form `from M import X` records
exactly the full dotted module `M` and never a member; a plain `import N`
statement records only the top-level (first) segment of `N`. -/
theorem C8_absolute_extraction (fqn m name : String) (members : List String) :
    stmtImports fqn (.fromImport 0 (some m) members) = [m] ∧
      (∀ x, x ∈ stmtImports fqn (.fromImport 0 (some m) members) → x = m) ∧
      stmtImports fqn (.imp name) = [(splitDots name).headD ""] ∧
      stmtImports "m" (.imp "a.b.c") = ["a"] := by
  refine ⟨rfl, ?_, rfl, by decide⟩
  intro x hx
  have hr : stmtImports fqn (.fromImport 0 (some m) members) = [m] := rfl
  rw [hr] at hx
  simpa using hx

/-- C9: a relative declaration whose ascend count exceeds the current
qualified name's segment count contributes no candidate at all — dropping it
leaves `get_imports` unchanged — and a module whose resulting dependency
entry is empty is never removed by cycle-breaking and always appears in the
final order. -/
theorem C9_overascending_relative_dropped {fqn : String} {level : Nat}
    {mod : Option String} {members : List String}
    (h : level > (splitDots fqn).length) (pre post : List Stmt) (refs : List String) :
    stmtImports fqn (.fromImport level mod members) = [] ∧
      get_imports (some (pre ++ Stmt.fromImport level mod members :: post, refs)) fqn =
        get_imports (some (pre ++ post, refs)) fqn ∧
      (∀ (g : Graph) (n : Node), WFGraph g → lookupG g n = some [] →
        n ∈ ignore_cycles g) := by
  have hempty : stmtImports fqn (.fromImport level mod members) = [] := by
    unfold stmtImports
    cases mod with
    | some m =>
      dsimp only
      rw [if_neg (by omega), if_pos h]
    | none =>
      dsimp only
      rw [if_pos (by omega), if_pos h]
  refine ⟨hempty, ?_, fun g n hWF hn => mem_ignore_cycles_of_empty_deps g n hWF hn⟩
  simp only [get_imports]
  rw [List.foldl_append, List.foldl_append, List.foldl_cons]
  rw [hempty]
  rfl

/-- Witness for C9 at ascend count 3 over the two-segment name `a.b`. -/
theorem C9_overascending_witness :
    3 > (splitDots "a.b").length ∧
      stmtImports "a.b" (.fromImport 3 (some "x") []) = [] ∧
      WFGraph [("m", ([] : List Node)), ("k", ["m"])] ∧
      "m" ∈ ignore_cycles [("m", []), ("k", ["m"])] := by
  have h := @C9_overascending_relative_dropped "a.b" 3 (some "x") [] (by decide) [] [] []
  exact ⟨by decide, h.1, by decide, h.2.2 _ _ (by decide) (by decide)⟩

/-- C10 (implicit): on a qualified-name collision every admitted path stays a
`by_path` key, while `by_name` retains exactly the module of the *last*
admitted path deriving that name (last-writer-wins); hence any candidate
dependency bearing that name resolves to the last-loaded module's path.  No
error or warning interrupts construction. -/
theorem C10_collision_last_writer_wins {files : List PyFile} {f : PyFile} (q : String)
    (hf : f ∈ files) (ha : isAdmitted f) :
    f.path ∈ dictKeys (loadModules files).1 ∧
      dictLookup (loadModules files).2 q =
        ((files.filter (fun x => isAdmitted x ∧ fqnOfPath x.path = q)).getLast?).map
          (fun x => (⟨x.path, fqnOfPath x.path⟩ : PyModule)) ∧
      (dictLookup (loadModules files).2 q).map PyModule.path =
        ((files.filter (fun x => isAdmitted x ∧ fqnOfPath x.path = q)).getLast?).map
          (fun x => x.path) := by
  refine ⟨mem_by_path.mpr ⟨f, hf, ha, rfl⟩, by_name_lookup files q, ?_⟩
  rw [by_name_lookup files q, Option.map_map]
  rfl

/-- Witness for C10 at the colliding pair `a/b.py`, `a.b.py` (both derive
`a.b`; the later-loaded `a.b.py` wins the `by_name` slot). -/
theorem C10_collision_witness :
    isAdmitted (⟨"a/b.py", true, some ([], [])⟩ : PyFile) ∧
      "a/b.py" ∈ dictKeys (loadModules [⟨"a/b.py", true, some ([], [])⟩,
        ⟨"a.b.py", true, some ([], [])⟩]).1 ∧
      "a.b.py" ∈ dictKeys (loadModules [⟨"a/b.py", true, some ([], [])⟩,
        ⟨"a.b.py", true, some ([], [])⟩]).1 ∧
      dictLookup (loadModules [⟨"a/b.py", true, some ([], [])⟩,
        ⟨"a.b.py", true, some ([], [])⟩]).2 "a.b" = some ⟨"a.b.py", "a.b"⟩ := by
  have h := @C10_collision_last_writer_wins
    [⟨"a/b.py", true, some ([], [])⟩, ⟨"a.b.py", true, some ([], [])⟩]
    ⟨"a/b.py", true, some ([], [])⟩ "a.b" (List.mem_cons_self _ _) (by decide)
  refine ⟨by decide, h.1, by decide, ?_⟩
  rw [h.2.1]
  decide

end TopoSort
